import Mathlib

/-!
# Verification of the kami self-play engine core

A shallow embedding of the kami repository's core components, with theorems
settling the frozen claims C1..C10 about the natural-language specification.

Conventions:
* C `int` squares and actions are embedded as `Nat` (all meaningful uses are
  non-negative), with `Int` used where the C code computes possibly negative
  intermediate values (direction steps, file deltas).
* C `float`/`double` quantities whose claims concern exact arithmetic
  invariants are embedded as `ℚ`.
* Bitboards (`uint64_t`) are embedded as `Nat` bit masks.
-/

namespace Kami

/-! ## Neocortex chess types (src/kami/chess/neocortex/types.h) -/

/-- `NC_PAWN` -/
def NC_PAWN : Nat := 0
/-- `NC_KNIGHT` -/
def NC_KNIGHT : Nat := 1
/-- `NC_BISHOP` -/
def NC_BISHOP : Nat := 2
/-- `NC_ROOK` -/
def NC_ROOK : Nat := 3
/-- `NC_QUEEN` -/
def NC_QUEEN : Nat := 4
/-- `NC_KING` -/
def NC_KING : Nat := 5

/-- `NC_NORTH` etc: direction steps on a 0..63 board, as in types.h. -/
def NC_NORTH : Int := 8
def NC_SOUTH : Int := -8
def NC_EAST : Int := 1
def NC_WEST : Int := -1
def NC_NORTHEAST : Int := 9
def NC_NORTHWEST : Int := 7
def NC_SOUTHEAST : Int := -7
def NC_SOUTHWEST : Int := -9

/-- `ncSquareRank(s) = s / 8` -/
def ncSquareRank (s : Nat) : Nat := s / 8

/-- `ncSquareFile(s) = s % 8` -/
def ncSquareFile (s : Nat) : Nat := s % 8

/-- `ncSquareValid` for an `Int`-valued square computed by pointer arithmetic. -/
def ncSquareValidI (s : Int) : Bool := 0 ≤ s && s < 64

/-- `ncSquareMask(s) = 1ULL << s` -/
def ncSquareMask (s : Nat) : Nat := 1 <<< s

/-- `ncMoveMake(src, dst) = src << 6 | dst | 0xF000` -/
def ncMoveMake (src dst : Nat) : Nat := (src <<< 6) ||| dst ||| 0xF000

/-- `ncMoveMakeP(src, dst, ptype) = src << 6 | dst | (ptype << 12)` -/
def ncMoveMakeP (src dst ptype : Nat) : Nat := (src <<< 6) ||| dst ||| (ptype <<< 12)

/-- `ncMoveSrc(mv) = (mv >> 6) & 0x3f` -/
def ncMoveSrc (mv : Nat) : Nat := (mv >>> 6) &&& 0x3f

/-- `ncMoveDst(mv) = mv & 0x3f` -/
def ncMoveDst (mv : Nat) : Nat := mv &&& 0x3f

/-- `ncMovePtype(mv) = (mv >> 12) & 0xF` -/
def ncMovePtype (mv : Nat) : Nat := (mv >>> 12) &&& 0xF

/-- `ncPieceTypeValid(p) = p >= 0 && p < 6` -/
def ncPieceTypeValid (p : Nat) : Bool := p < 6

/-- Auxiliary loop for `ncBitboardPopcnt` with explicit bit budget. -/
def popcntGo : Nat → Nat → Nat
  | 0, _ => 0
  | fuel + 1, b => b % 2 + popcntGo fuel (b / 2)

/-- `ncBitboardPopcnt`: number of set bits of a 64-bit bitboard. -/
def ncBitboardPopcnt (b : Nat) : Nat := popcntGo 64 b

/-! ## Ray and between tables (src/src/chess/neocortex/types.c)

`ncBitboardInitRays` fills `NC_RAYS[src][dir]` by walking from `src` in the
given direction while the square stays valid (and, for east/west-ish
directions, while the file keeps increasing/decreasing, which stops the walk
at the board edge).  We embed each walk with explicit fuel 8 (a ray has at
most 7 squares, so the fuel never runs out in-domain). -/

/-- One ray walk: step from `sq` accumulating masks while the square is valid
and `cond` holds, mirroring the `for` loops of `ncBitboardInitRays`. -/
def rayGo (step : Int) (cond : Nat → Bool) : Int → Nat → Nat
  | _, 0 => 0
  | sq, fuel + 1 =>
    if ncSquareValidI sq then
      let s := sq.toNat
      if cond s then ncSquareMask s ||| rayGo step cond (sq + step) fuel
      else 0
    else 0

/-- `NC_RAYS[src][i]` for direction index `i` in the order
N, S, E, W, NE, NW, SE, SW used by `ncBitboardInitRays`. -/
def ncRays (src : Nat) (i : Nat) : Nat :=
  match i with
  | 0 => rayGo NC_NORTH (fun _ => true) ((src : Int) + NC_NORTH) 8
  | 1 => rayGo NC_SOUTH (fun _ => true) ((src : Int) + NC_SOUTH) 8
  | 2 => rayGo NC_EAST (fun s => ncSquareFile src < ncSquareFile s) ((src : Int) + NC_EAST) 8
  | 3 => rayGo NC_WEST (fun s => ncSquareFile s < ncSquareFile src) ((src : Int) + NC_WEST) 8
  | 4 => rayGo NC_NORTHEAST (fun s => ncSquareFile src < ncSquareFile s) ((src : Int) + NC_NORTHEAST) 8
  | 5 => rayGo NC_NORTHWEST (fun s => ncSquareFile s < ncSquareFile src) ((src : Int) + NC_NORTHWEST) 8
  | 6 => rayGo NC_SOUTHEAST (fun s => ncSquareFile src < ncSquareFile s) ((src : Int) + NC_SOUTHEAST) 8
  | _ => rayGo NC_SOUTHWEST (fun s => ncSquareFile s < ncSquareFile src) ((src : Int) + NC_SOUTHWEST) 8

/-- `ncBitboardRay(src, dir)`: dispatch from a direction step to the table,
as in types.c. -/
def ncBitboardRay (src : Nat) (dir : Int) : Nat :=
  if dir = NC_NORTH then ncRays src 0
  else if dir = NC_SOUTH then ncRays src 1
  else if dir = NC_EAST then ncRays src 2
  else if dir = NC_WEST then ncRays src 3
  else if dir = NC_NORTHEAST then ncRays src 4
  else if dir = NC_NORTHWEST then ncRays src 5
  else if dir = NC_SOUTHEAST then ncRays src 6
  else if dir = NC_SOUTHWEST then ncRays src 7
  else 0

/-- Queen attacks from `src` on an empty board: the union of the eight rays.
`ncBitboardInitBetween` iterates `dst` over `ncAttacksQueen(src, 0)`, which
equals this union; squares outside it keep `NC_BETWEEN[src][dst] = 0`. -/
def queenRaysAll (src : Nat) : Nat :=
  ncRays src 0 ||| ncRays src 1 ||| ncRays src 2 ||| ncRays src 3 |||
  ncRays src 4 ||| ncRays src 5 ||| ncRays src 6 ||| ncRays src 7

/-- The walk of `ncBitboardInitBetween`: step from `start` towards `dst`
(one rank/file-correcting step at a time), accumulating the squares stepped
onto; the final result removes `dst` itself. -/
def betweenGo (dst : Nat) : Nat → Nat → Nat → Nat
  | _, 0, acc => acc
  | start, fuel + 1, acc =>
    if start = dst then acc
    else
      let shift : Int :=
        (if ncSquareRank start < ncSquareRank dst then NC_NORTH
         else if ncSquareRank dst < ncSquareRank start then NC_SOUTH else 0) +
        (if ncSquareFile start < ncSquareFile dst then NC_EAST
         else if ncSquareFile dst < ncSquareFile start then NC_WEST else 0)
      let start' := ((start : Int) + shift).toNat
      betweenGo dst start' fuel (acc ||| ncSquareMask start')

/-- `ncBitboardBetween(src, dst) = NC_BETWEEN[src][dst]`: squares strictly
between `src` and `dst` when `dst` lies on a queen ray of `src`, else 0. -/
def ncBitboardBetween (src dst : Nat) : Nat :=
  if (queenRaysAll src).testBit dst then
    (betweenGo dst src 8 0) &&& ((1 <<< 64) - 1 - ncSquareMask dst)
  else 0

/-! ## The move codec (src/kami/env.h, `Env::encode` / `Env::decode`)

`Env::encode` reads the moving piece from the board (`ncBoardGetPiece`,
whose implementation is outside src/); we take the piece *type* of the
source square as the `srcptype` argument.  The side to move
(`ncPositionGetCTM`) is the `isBlack` argument. -/

/-- The ray-slot branch of `Env::encode` (cases QUEEN/ROOK/BISHOP/KING and
fall-through pawn moves), after the POV flip. -/
def encodeRay (src dst : Nat) : Int :=
  let ind : Int := ncBitboardPopcnt (ncBitboardBetween src dst)
  let dstmask := ncSquareMask dst
  if ncBitboardRay src NC_NORTH &&& dstmask ≠ 0 then 73 * src + ind
  else if ncBitboardRay src NC_SOUTH &&& dstmask ≠ 0 then 73 * src + 7 + ind
  else if ncBitboardRay src NC_EAST &&& dstmask ≠ 0 then 73 * src + 14 + ind
  else if ncBitboardRay src NC_WEST &&& dstmask ≠ 0 then 73 * src + 21 + ind
  else if ncBitboardRay src NC_NORTHEAST &&& dstmask ≠ 0 then 73 * src + 28 + ind
  else if ncBitboardRay src NC_NORTHWEST &&& dstmask ≠ 0 then 73 * src + 35 + ind
  else if ncBitboardRay src NC_SOUTHEAST &&& dstmask ≠ 0 then 73 * src + 42 + ind
  else 73 * src + 49 + ind

/-- The knight branch of `Env::encode`, after the POV flip. -/
def encodeKnight (src dst : Nat) : Int :=
  let srcrank := ncSquareRank src
  let dstrank := ncSquareRank dst
  let srcfile := ncSquareFile src
  let dstfile := ncSquareFile dst
  let ind : Int :=
    (if dstrank < srcrank then 4 else 0) +
    (if srcfile < dstfile then 2 else 0) +
    ((srcrank : Int) - dstrank).natAbs - 1
  73 * src + 56 + ind

/-- The under-promotion branch of `Env::encode` (pawn with a valid non-queen
promotion type), after the POV flip. -/
def encodeUnderpromo (src dst ptype : Nat) : Int :=
  let srcfile : Int := ncSquareFile src
  let dstfile : Int := ncSquareFile dst
  if ptype = NC_KNIGHT then 73 * src + 64 + (dstfile - srcfile) + 1
  else if ptype = NC_BISHOP then 73 * src + 64 + (dstfile - srcfile) + 4
  else 73 * src + 64 + (dstfile - srcfile) + 7

/-- `Env::encode`.  `isBlack` is `ncPositionGetCTM(&game) == NC_BLACK`;
`srcptype` is `ncPieceType(ncBoardGetPiece(&game.board, src))`. -/
def encode (isBlack : Bool) (srcptype : Nat) (move : Nat) : Int :=
  let src0 := ncMoveSrc move
  let dst0 := ncMoveDst move
  let ptype := ncMovePtype move
  let src := if isBlack then 63 - src0 else src0
  let dst := if isBlack then 63 - dst0 else dst0
  if srcptype = NC_PAWN ∧ ncPieceTypeValid ptype ∧ ptype ≠ NC_QUEEN ∧
     (ptype = NC_KNIGHT ∨ ptype = NC_BISHOP ∨ ptype = NC_ROOK) then
    encodeUnderpromo src dst ptype
  else if srcptype = NC_PAWN ∨ srcptype = NC_QUEEN ∨ srcptype = NC_ROOK ∨
          srcptype = NC_BISHOP ∨ srcptype = NC_KING then
    encodeRay src dst
  else if srcptype = NC_KNIGHT then
    encodeKnight src dst
  else 0

/-- The branch computations of `Env::decode` before the POV flip: from an
action index, the source square, the (possibly off-board) destination square,
and the promotion piece type (`0xF` when the move does not promote, matching
`ncMoveMake`).  Each of the three branches of `Env::decode` computes these and
then applies the same flip-and-pack step, which `decode` below performs. -/
def decodePov (action : Nat) : Nat × Int × Nat :=
  let src := action / 73
  let atype := action % 73
  if atype < 56 then
    -- Ray move
    let dirs : List Int := [NC_NORTH, NC_SOUTH, NC_EAST, NC_WEST,
                            NC_NORTHEAST, NC_NORTHWEST, NC_SOUTHEAST, NC_SOUTHWEST]
    (src, (src : Int) + (dirs.getD (atype / 7) 0) * ((atype % 7) + 1), 0xF)
  else if atype < 64 then
    -- Knight move
    let dirs : List Int := [NC_WEST + NC_NORTHWEST, NC_NORTH + NC_NORTHWEST,
                            NC_EAST + NC_NORTHEAST, NC_NORTH + NC_NORTHEAST,
                            NC_WEST + NC_SOUTHWEST, NC_SOUTH + NC_SOUTHWEST,
                            NC_EAST + NC_SOUTHEAST, NC_SOUTH + NC_SOUTHEAST]
    (src, (src : Int) + dirs.getD (atype - 56) 0, 0xF)
  else
    -- Minor promoting move
    let dirs : List Int := [NC_NORTHWEST, NC_NORTH, NC_NORTHEAST]
    let ptypes : List Nat := [NC_KNIGHT, NC_BISHOP, NC_ROOK]
    (src, (src : Int) + dirs.getD ((atype - 64) % 3) 0, ptypes.getD ((atype - 64) / 3) 0)

/-- `Env::decode`.  `isBlack` is the side to move as in `encode`.  Each source
branch ends with "flip `src`/`dst` when black, then `ncMoveMake(P)`"; that
common step is applied here to the branch results of `decodePov`
(`ncMoveMake src dst = ncMoveMakeP src dst 0xF`). -/
def decode (isBlack : Bool) (action : Nat) : Nat :=
  let r := decodePov action
  let src' := if isBlack then 63 - r.1 else r.1
  let dst' : Int := if isBlack then 63 - r.2.1 else r.2.1
  ncMoveMakeP src' dst'.toNat r.2.2

/-! ## Geometric move shapes

The move generator (`ncPositionPLMoves` / `ncPositionMakeMove`, file
position.c) is not part of the sources; only its caller `Env::actions` is.
`legalShapePov` is modelled from the spec: it captures the geometric shape,
in the side-to-move point of view, of the moves the spec's game-rules
contract can declare legal ("Sliding and king moves and queen-promotions use
the 56 ray slots selected by the ray direction through the destination",
"Pawn promotions", "Knight moves", §4.1).  Every legal chess move of a piece
of type `spt` satisfies it; the predicate ignores occupancy/check, so it is
strictly weaker than full legality. -/

/-- Arithmetic characterization of "`dst` lies on one of the eight queen rays
of `src`": same rank, same file, or same diagonal (and distinct). -/
def onRayB (src dst : Nat) : Bool :=
  let dr : Int := (ncSquareRank dst : Int) - ncSquareRank src
  let df : Int := (ncSquareFile dst : Int) - ncSquareFile src
  (dr == 0 && df != 0) || (df == 0 && dr != 0) || (dr.natAbs == df.natAbs && dr != 0)

/-- Knight move shape: rank/file deltas of absolute values {1,2}. -/
def knightShapeB (src dst : Nat) : Bool :=
  let dr := ((ncSquareRank dst : Int) - ncSquareRank src).natAbs
  let df := ((ncSquareFile dst : Int) - ncSquareFile src).natAbs
  (dr == 1 && df == 2) || (dr == 2 && df == 1)

/-- Pawn push / double push / diagonal capture shape (POV frame). -/
def pawnStepShapeB (s d : Nat) : Bool :=
  d = s + 8 || (d = s + 16 && ncSquareRank s = 1) ||
  (d = s + 7 && ncSquareFile s ≠ 0) || (d = s + 9 && ncSquareFile s ≠ 7)

/-- Pawn promotion shape (POV frame): one step straight or a capture into
rank 7 from rank 6. -/
def pawnPromoShapeB (s d : Nat) : Bool :=
  ncSquareRank s = 6 &&
  (d = s + 8 || (d = s + 7 && ncSquareFile s ≠ 0) || (d = s + 9 && ncSquareFile s ≠ 7))

/-- King single-step shape. -/
def kingStepShapeB (s d : Nat) : Bool :=
  onRayB s d && ((ncSquareRank s : Int) - ncSquareRank d).natAbs ≤ 1 &&
    ((ncSquareFile s : Int) - ncSquareFile d).natAbs ≤ 1

/-- Castling shape: the king moves two squares along its rank. -/
def castleShapeB (s d : Nat) : Bool :=
  ncSquareRank s = ncSquareRank d && ((ncSquareFile s : Int) - ncSquareFile d).natAbs = 2

/-- Modelled from the spec: the geometric shape of a legal move for a piece of
type `spt` from `s` to `d` with promotion field `pt`, in the point of view of
the side to move (pawns move towards rank 7).  Movegen itself (position.c) is
outside the sources. -/
def legalShapePov (spt : Nat) (s d : Nat) (pt : Nat) : Bool :=
  s < 64 && d < 64 &&
  (if spt = NC_PAWN then
    (if pt = 0xF then pawnStepShapeB s d
     else
      (pt = NC_KNIGHT || pt = NC_BISHOP || pt = NC_ROOK || pt = NC_QUEEN) &&
      pawnPromoShapeB s d)
  else if spt = NC_KNIGHT then pt = 0xF && knightShapeB s d
  else if spt = NC_BISHOP then
    pt = 0xF && onRayB s d && ncSquareRank s ≠ ncSquareRank d && ncSquareFile s ≠ ncSquareFile d
  else if spt = NC_ROOK then
    pt = 0xF && onRayB s d && (ncSquareRank s = ncSquareRank d || ncSquareFile s = ncSquareFile d)
  else if spt = NC_QUEEN then pt = 0xF && onRayB s d
  else if spt = NC_KING then
    pt = 0xF && (kingStepShapeB s d || castleShapeB s d)
  else false)

/-- Modelled from the spec: `m` is a (canonically packed) move whose geometry
a legal move of piece type `spt` can have, for the given side to move. -/
def LegalGeomB (isBlack : Bool) (spt m : Nat) : Bool :=
  let s0 := ncMoveSrc m
  let d0 := ncMoveDst m
  let pt := ncMovePtype m
  m = ncMoveMakeP s0 d0 pt &&
  legalShapePov spt (if isBlack then 63 - s0 else s0) (if isBlack then 63 - d0 else d0) pt

/-! ### Exhaustive branch checks for the codec round trip

Each `check*` function verifies one `encode` branch against `decodePov` over
all square pairs of the relevant shape; the equations `check* = true` are
established by kernel evaluation. -/

/-- Ray branch check: on every on-ray pair, `encodeRay` lands in `[0, 4672)`
in a ray slot, and `decodePov` recovers the pair (with no promotion). -/
def checkRayRT : Bool :=
  (List.range 64).all fun s => (List.range 64).all fun d =>
    !onRayB s d ||
      (decide (decodePov (encodeRay s d).toNat = (s, (d : Int), 0xF)) &&
       decide (0 ≤ encodeRay s d) && decide (encodeRay s d < 4672))

/-- Knight branch check. -/
def checkKnightRT : Bool :=
  (List.range 64).all fun s => (List.range 64).all fun d =>
    !knightShapeB s d ||
      (decide (decodePov (encodeKnight s d).toNat = (s, (d : Int), 0xF)) &&
       decide (0 ≤ encodeKnight s d) && decide (encodeKnight s d < 4672))

/-- Under-promotion branch check, for promotion pieces N, B, R. -/
def checkUnderpromoRT : Bool :=
  (List.range 64).all fun s => (List.range 64).all fun d =>
    !pawnPromoShapeB s d ||
      [NC_KNIGHT, NC_BISHOP, NC_ROOK].all fun pt =>
        decide (decodePov (encodeUnderpromo s d pt).toNat = (s, (d : Int), pt)) &&
        decide (0 ≤ encodeUnderpromo s d pt) && decide (encodeUnderpromo s d pt < 4672)

/-- The non-knight shapes all lie on a queen ray. -/
def checkShapesOnRay : Bool :=
  (List.range 64).all fun s => (List.range 64).all fun d =>
    (!pawnStepShapeB s d || onRayB s d) &&
    (!pawnPromoShapeB s d || onRayB s d) &&
    (!castleShapeB s d || onRayB s d)

/-- Move packing facts used to reconcile POV flips with `ncMoveMakeP`. -/
def checkPacking : Bool :=
  (List.range 64).all fun s => (List.range 64).all fun d =>
    [NC_KNIGHT, NC_BISHOP, NC_ROOK, NC_QUEEN, 0xF].all fun pt =>
      decide (ncMoveSrc (ncMoveMakeP s d pt) = s) &&
      decide (ncMoveDst (ncMoveMakeP s d pt) = d) &&
      decide (ncMovePtype (ncMoveMakeP s d pt) = pt)

set_option maxRecDepth 100000 in
set_option maxHeartbeats 4000000 in
theorem checkRayRT_eq : checkRayRT = true := by rfl

set_option maxRecDepth 100000 in
set_option maxHeartbeats 4000000 in
theorem checkKnightRT_eq : checkKnightRT = true := by rfl

set_option maxRecDepth 100000 in
set_option maxHeartbeats 4000000 in
theorem checkUnderpromoRT_eq : checkUnderpromoRT = true := by rfl

set_option maxRecDepth 100000 in
set_option maxHeartbeats 4000000 in
theorem checkShapesOnRay_eq : checkShapesOnRay = true := by rfl

set_option maxRecDepth 100000 in
set_option maxHeartbeats 4000000 in
theorem checkPacking_eq : checkPacking = true := by rfl


theorem ncMoveSrc_lt (m : Nat) : ncMoveSrc m < 64 :=
  Nat.lt_succ_of_le (Nat.and_le_right)

theorem ncMoveDst_lt (m : Nat) : ncMoveDst m < 64 :=
  Nat.lt_succ_of_le (Nat.and_le_right)

theorem rayRT_of (s d : Nat) (hs : s < 64) (hd : d < 64) (h : onRayB s d = true) :
    decodePov (encodeRay s d).toNat = (s, (d : Int), 0xF) ∧
    0 ≤ encodeRay s d ∧ encodeRay s d < 4672 := by
  have hall := checkRayRT_eq
  unfold checkRayRT at hall
  rw [List.all_eq_true] at hall
  have h1 := hall s (List.mem_range.mpr hs)
  rw [List.all_eq_true] at h1
  have h2 := h1 d (List.mem_range.mpr hd)
  rw [h] at h2
  simp only [Bool.not_true, Bool.false_or, Bool.and_eq_true, decide_eq_true_eq] at h2
  exact ⟨h2.1.1, h2.1.2, h2.2⟩

theorem knightRT_of (s d : Nat) (hs : s < 64) (hd : d < 64) (h : knightShapeB s d = true) :
    decodePov (encodeKnight s d).toNat = (s, (d : Int), 0xF) ∧
    0 ≤ encodeKnight s d ∧ encodeKnight s d < 4672 := by
  have hall := checkKnightRT_eq
  unfold checkKnightRT at hall
  rw [List.all_eq_true] at hall
  have h1 := hall s (List.mem_range.mpr hs)
  rw [List.all_eq_true] at h1
  have h2 := h1 d (List.mem_range.mpr hd)
  rw [h] at h2
  simp only [Bool.not_true, Bool.false_or, Bool.and_eq_true, decide_eq_true_eq] at h2
  exact ⟨h2.1.1, h2.1.2, h2.2⟩

theorem underpromoRT_of (s d pt : Nat) (hs : s < 64) (hd : d < 64)
    (h : pawnPromoShapeB s d = true)
    (hpt : pt = NC_KNIGHT ∨ pt = NC_BISHOP ∨ pt = NC_ROOK) :
    decodePov (encodeUnderpromo s d pt).toNat = (s, (d : Int), pt) ∧
    0 ≤ encodeUnderpromo s d pt ∧ encodeUnderpromo s d pt < 4672 := by
  have hall := checkUnderpromoRT_eq
  unfold checkUnderpromoRT at hall
  rw [List.all_eq_true] at hall
  have h1 := hall s (List.mem_range.mpr hs)
  rw [List.all_eq_true] at h1
  have h2 := h1 d (List.mem_range.mpr hd)
  rw [h] at h2
  simp only [Bool.not_true, Bool.false_or, List.all_cons, List.all_nil, Bool.and_eq_true,
    decide_eq_true_eq] at h2
  rcases hpt with hpt | hpt | hpt <;> subst hpt
  · exact ⟨h2.1.1.1, h2.1.1.2, h2.1.2⟩
  · exact ⟨h2.2.1.1.1, h2.2.1.1.2, h2.2.1.2⟩
  · exact ⟨h2.2.2.1.1.1, h2.2.2.1.1.2, h2.2.2.1.2⟩

theorem shapesOnRay_of (s d : Nat) (hs : s < 64) (hd : d < 64) :
    (pawnStepShapeB s d = true → onRayB s d = true) ∧
    (pawnPromoShapeB s d = true → onRayB s d = true) ∧
    (castleShapeB s d = true → onRayB s d = true) := by
  have hall := checkShapesOnRay_eq
  unfold checkShapesOnRay at hall
  rw [List.all_eq_true] at hall
  have h1 := hall s (List.mem_range.mpr hs)
  rw [List.all_eq_true] at h1
  have h2 := h1 d (List.mem_range.mpr hd)
  simp only [Bool.and_eq_true, Bool.or_eq_true, Bool.not_eq_true'] at h2
  refine ⟨fun hp => ?_, fun hp => ?_, fun hp => ?_⟩
  · rcases h2.1.1 with h | h; · rw [hp] at h; exact absurd h (by simp)
    exact h
  · rcases h2.1.2 with h | h; · rw [hp] at h; exact absurd h (by simp)
    exact h
  · rcases h2.2 with h | h; · rw [hp] at h; exact absurd h (by simp)
    exact h


theorem encode_ray_eq (isBlack : Bool) (spt m : Nat)
    (h : (spt = NC_PAWN ∧ ¬(ncMovePtype m = NC_KNIGHT ∨ ncMovePtype m = NC_BISHOP ∨
            ncMovePtype m = NC_ROOK)) ∨
         spt = NC_QUEEN ∨ spt = NC_ROOK ∨ spt = NC_BISHOP ∨ spt = NC_KING) :
    encode isBlack spt m =
      encodeRay (if isBlack then 63 - ncMoveSrc m else ncMoveSrc m)
                (if isBlack then 63 - ncMoveDst m else ncMoveDst m) := by
  simp only [encode]
  rcases h with ⟨h0, hnpt⟩ | h | h | h | h <;> subst_vars
  · rw [if_neg, if_pos (by left; rfl)]
    rintro ⟨-, -, -, hpt⟩; exact hnpt hpt
  · rw [if_neg (by simp [NC_QUEEN, NC_PAWN]), if_pos (by simp [NC_QUEEN])]
  · rw [if_neg (by simp [NC_ROOK, NC_PAWN]), if_pos (by simp [NC_ROOK, NC_QUEEN])]
  · rw [if_neg (by simp [NC_BISHOP, NC_PAWN]), if_pos (by simp [NC_BISHOP, NC_QUEEN, NC_ROOK])]
  · rw [if_neg (by simp [NC_KING, NC_PAWN]),
        if_pos (by simp [NC_KING, NC_PAWN, NC_QUEEN, NC_ROOK, NC_BISHOP])]

theorem encode_knight_eq (isBlack : Bool) (m : Nat) :
    encode isBlack NC_KNIGHT m =
      encodeKnight (if isBlack then 63 - ncMoveSrc m else ncMoveSrc m)
                   (if isBlack then 63 - ncMoveDst m else ncMoveDst m) := by
  simp only [encode]
  rw [if_neg (by simp [NC_KNIGHT, NC_PAWN]),
      if_neg (by simp [NC_KNIGHT, NC_PAWN, NC_QUEEN, NC_ROOK, NC_BISHOP, NC_KING])]
  simp only [if_true]

theorem encode_promo_eq (isBlack : Bool) (m : Nat)
    (hpt : ncMovePtype m = NC_KNIGHT ∨ ncMovePtype m = NC_BISHOP ∨ ncMovePtype m = NC_ROOK) :
    encode isBlack NC_PAWN m =
      encodeUnderpromo (if isBlack then 63 - ncMoveSrc m else ncMoveSrc m)
                       (if isBlack then 63 - ncMoveDst m else ncMoveDst m) (ncMovePtype m) := by
  simp only [encode]
  rw [if_pos]
  refine ⟨True.intro, ?_, ?_, hpt⟩
  · rcases hpt with h | h | h <;> rw [h] <;> decide
  · rcases hpt with h | h | h <;> rw [h] <;> decide

theorem decode_pack (isBlack : Bool) (a : Nat) (s0 d0 pt : Nat)
    (hs0 : s0 < 64) (hd0 : d0 < 64)
    (hdp : decodePov a = ((if isBlack then 63 - s0 else s0 : Nat),
                          ((if isBlack then 63 - d0 else d0 : Nat) : Int), pt)) :
    decode isBlack a = ncMoveMakeP s0 d0 pt := by
  simp only [decode, hdp]
  cases isBlack
  · simp
  · simp only [if_true]
    have h1 : 63 - (63 - s0) = s0 := by omega
    have h2 : ((63 : Int) - ((63 - d0 : Nat) : Int)).toNat = d0 := by omega
    simp only [Bool.true_eq, if_true] at *
    rw [h1, h2]

set_option maxHeartbeats 1000000 in
/-- C1 (amended): for every move `m` whose geometry a legal move can have
(canonically packed, piece type `spt` on the source square), `Env::encode`
yields an action index in `[0, 4672)`, and — provided `m` is not a queen
promotion — `Env::decode` applied to the encoded index returns `m` exactly,
for both sides to move (the black side reflecting through the board center).
Queen promotions are excluded: they share the ray slots and decode without
their promotion type (see the counterexample). -/
theorem c1_codec_roundtrip (isBlack : Bool) (spt m : Nat)
    (h : LegalGeomB isBlack spt m = true) :
    (0 ≤ encode isBlack spt m ∧ encode isBlack spt m < 4672) ∧
    (¬(spt = NC_PAWN ∧ ncMovePtype m = NC_QUEEN) →
      decode isBlack (encode isBlack spt m).toNat = m) := by
  have hs0 : ncMoveSrc m < 64 := ncMoveSrc_lt m
  have hd0 : ncMoveDst m < 64 := ncMoveDst_lt m
  unfold LegalGeomB at h
  simp only [Bool.and_eq_true, decide_eq_true_eq] at h
  obtain ⟨hcanon, hshape⟩ := h
  unfold legalShapePov at hshape
  simp only [Bool.and_eq_true, decide_eq_true_eq] at hshape
  obtain ⟨⟨hps, hpd⟩, hbr⟩ := hshape
  by_cases h0 : spt = NC_PAWN
  · subst h0
    rw [if_pos rfl] at hbr
    by_cases hF : ncMovePtype m = 0xF
    · rw [if_pos hF] at hbr
      have honray := (shapesOnRay_of _ _ hps hpd).1 hbr
      have henc := encode_ray_eq isBlack NC_PAWN m (Or.inl ⟨rfl, by rw [hF]; decide⟩)
      obtain ⟨hdp, hge, hlt⟩ := rayRT_of _ _ hps hpd honray
      rw [henc]
      refine ⟨⟨hge, hlt⟩, fun _ => ?_⟩
      rw [decode_pack isBlack _ (ncMoveSrc m) (ncMoveDst m) 0xF hs0 hd0 hdp]
      rw [hF] at hcanon
      exact hcanon.symm
    · rw [if_neg hF] at hbr
      simp only [Bool.and_eq_true, Bool.or_eq_true, decide_eq_true_eq] at hbr
      obtain ⟨hpt4, hpromo⟩ := hbr
      have promoCase : ∀ hpt : ncMovePtype m = NC_KNIGHT ∨ ncMovePtype m = NC_BISHOP ∨
            ncMovePtype m = NC_ROOK,
          (0 ≤ encode isBlack NC_PAWN m ∧ encode isBlack NC_PAWN m < 4672) ∧
          (¬(NC_PAWN = NC_PAWN ∧ ncMovePtype m = NC_QUEEN) →
            decode isBlack (encode isBlack NC_PAWN m).toNat = m) := by
        intro hpt
        have henc := encode_promo_eq isBlack m hpt
        obtain ⟨hdp, hge, hlt⟩ := underpromoRT_of _ _ _ hps hpd hpromo hpt
        rw [henc]
        refine ⟨⟨hge, hlt⟩, fun _ => ?_⟩
        rw [decode_pack isBlack _ (ncMoveSrc m) (ncMoveDst m) (ncMovePtype m) hs0 hd0 hdp]
        exact hcanon.symm
      rcases hpt4 with ((hpt | hpt) | hpt) | hpt
      · exact promoCase (Or.inl hpt)
      · exact promoCase (Or.inr (Or.inl hpt))
      · exact promoCase (Or.inr (Or.inr hpt))
      · -- queen promotion: in range, but excluded from the round trip
        have honray := (shapesOnRay_of _ _ hps hpd).2.1 hpromo
        have henc := encode_ray_eq isBlack NC_PAWN m (Or.inl ⟨rfl, by rw [hpt]; decide⟩)
        obtain ⟨hdp, hge, hlt⟩ := rayRT_of _ _ hps hpd honray
        rw [henc]
        exact ⟨⟨hge, hlt⟩, fun hq => absurd ⟨rfl, hpt⟩ hq⟩
  · rw [if_neg h0] at hbr
    have rayCase : ∀ hray : onRayB (if isBlack then 63 - ncMoveSrc m else ncMoveSrc m)
          (if isBlack then 63 - ncMoveDst m else ncMoveDst m) = true,
        ncMovePtype m = 0xF →
        (spt = NC_QUEEN ∨ spt = NC_ROOK ∨ spt = NC_BISHOP ∨ spt = NC_KING) →
        (0 ≤ encode isBlack spt m ∧ encode isBlack spt m < 4672) ∧
        (¬(spt = NC_PAWN ∧ ncMovePtype m = NC_QUEEN) →
          decode isBlack (encode isBlack spt m).toNat = m) := by
      intro hray hF hsp
      have henc := encode_ray_eq isBlack spt m (Or.inr hsp)
      obtain ⟨hdp, hge, hlt⟩ := rayRT_of _ _ hps hpd hray
      rw [henc]
      refine ⟨⟨hge, hlt⟩, fun _ => ?_⟩
      rw [decode_pack isBlack _ (ncMoveSrc m) (ncMoveDst m) 0xF hs0 hd0 hdp]
      rw [hF] at hcanon
      exact hcanon.symm
    by_cases h1 : spt = NC_KNIGHT
    · subst h1
      rw [if_pos rfl] at hbr
      simp only [Bool.and_eq_true, decide_eq_true_eq] at hbr
      obtain ⟨hF, hkn⟩ := hbr
      have henc := encode_knight_eq isBlack m
      obtain ⟨hdp, hge, hlt⟩ := knightRT_of _ _ hps hpd hkn
      rw [henc]
      refine ⟨⟨hge, hlt⟩, fun _ => ?_⟩
      rw [decode_pack isBlack _ (ncMoveSrc m) (ncMoveDst m) 0xF hs0 hd0 hdp]
      rw [hF] at hcanon
      exact hcanon.symm
    · rw [if_neg h1] at hbr
      by_cases h2 : spt = NC_BISHOP
      · subst h2
        rw [if_pos rfl] at hbr
        simp only [Bool.and_eq_true, decide_eq_true_eq] at hbr
        exact rayCase hbr.1.1.2 hbr.1.1.1 (Or.inr (Or.inr (Or.inl rfl)))
      · rw [if_neg h2] at hbr
        by_cases h3 : spt = NC_ROOK
        · subst h3
          rw [if_pos rfl] at hbr
          simp only [Bool.and_eq_true, decide_eq_true_eq] at hbr
          exact rayCase hbr.1.2 hbr.1.1 (Or.inr (Or.inl rfl))
        · rw [if_neg h3] at hbr
          by_cases h4 : spt = NC_QUEEN
          · subst h4
            rw [if_pos rfl] at hbr
            simp only [Bool.and_eq_true, decide_eq_true_eq] at hbr
            exact rayCase hbr.2 hbr.1 (Or.inl rfl)
          · rw [if_neg h4] at hbr
            by_cases h5 : spt = NC_KING
            · subst h5
              rw [if_pos rfl] at hbr
              simp only [Bool.and_eq_true, Bool.or_eq_true, decide_eq_true_eq] at hbr
              obtain ⟨hF, hstep | hcastle⟩ := hbr
              · unfold kingStepShapeB at hstep
                simp only [Bool.and_eq_true, decide_eq_true_eq] at hstep
                exact rayCase hstep.1.1 hF (Or.inr (Or.inr (Or.inr rfl)))
              · exact rayCase ((shapesOnRay_of _ _ hps hpd).2.2 hcastle) hF
                  (Or.inr (Or.inr (Or.inr rfl)))
            · rw [if_neg h5] at hbr
              exact absurd hbr (by simp)

/-- C1 witness: the knight move g1f3 is geometrically legal in the initial
position and round-trips through the codec. -/
theorem c1_codec_roundtrip_witness :
    LegalGeomB false NC_KNIGHT (ncMoveMake 6 21) = true ∧
    ((0 ≤ encode false NC_KNIGHT (ncMoveMake 6 21) ∧
      encode false NC_KNIGHT (ncMoveMake 6 21) < 4672) ∧
     (¬(NC_KNIGHT = NC_PAWN ∧ ncMovePtype (ncMoveMake 6 21) = NC_QUEEN) →
       decode false (encode false NC_KNIGHT (ncMoveMake 6 21)).toNat = ncMoveMake 6 21)) :=
  ⟨by decide, c1_codec_roundtrip false NC_KNIGHT (ncMoveMake 6 21) (by decide)⟩

/-- C1 counterexample: the white queen promotion a7a8q (`ncMoveMakeP 48 56 4`)
is a legal move shape, but decoding its encoded action returns the move
without the promotion type, so `decode(s, encode(s, m)) ≠ m`. -/
theorem c1_codec_queen_promo_counterexample :
    LegalGeomB false NC_PAWN (ncMoveMakeP 48 56 NC_QUEEN) = true ∧
    decode false (encode false NC_PAWN (ncMoveMakeP 48 56 NC_QUEEN)).toNat ≠
      ncMoveMakeP 48 56 NC_QUEEN := by
  constructor
  · decide
  · decide

/-! ## Terminal detection (src/kami/env.h, `Env::terminal_str`)

The position accessors (`ncPositionHalfmoveClock`, `ncPositionRepCount`,
board occupancies, `ncPositionIsCheck`, `ncPositionGetCTM`) live in
position.c, outside the sources; they become fields of `EnvPos`.
`Env::actions()` returns the memoized legal action list. -/

structure EnvPos where
  halfmoveClock : Nat
  repCount : Nat
  kings : Nat
  knights : Nat
  bishops : Nat
  global : Nat
  white : Nat
  black : Nat
  legalActions : List Nat
  isCheck : Bool
  whiteToMove : Bool

/-- The insufficient-material condition of `Env::terminal_str`, verbatim:
K vs K, K vs KB, KB vs KB with equal per-side counts, K vs KN, KN vs KN with
equal per-side counts. -/
def insufficientMaterial (e : EnvPos) : Prop :=
  e.kings = e.global ∨
  (e.global = (e.kings ||| e.bishops) ∧
    (ncBitboardPopcnt e.bishops = 1 ∨
     (ncBitboardPopcnt e.white = ncBitboardPopcnt e.black ∧
      ncBitboardPopcnt e.bishops = 2))) ∨
  (e.global = (e.kings ||| e.knights) ∧
    (ncBitboardPopcnt e.knights = 1 ∨
     (ncBitboardPopcnt e.white = ncBitboardPopcnt e.black ∧
      ncBitboardPopcnt e.knights = 2)))

instance (e : EnvPos) : Decidable (insufficientMaterial e) := by
  unfold insufficientMaterial; infer_instance

/-- `Env::terminal_str`: `none` when the game continues, `some (v, reason)`
when terminal, following the source's test order. -/
def terminal_str (e : EnvPos) : Option (Int × String) :=
  if 50 ≤ e.halfmoveClock then some (0, "Draw by 50-move rule")
  else if 3 < e.repCount then some (0, "Draw by threefold repetition")
  else if insufficientMaterial e then some (0, "Draw by insufficient material")
  else if e.legalActions.length ≠ 0 then none
  else if e.isCheck then
    if e.whiteToMove then some (-1, "White is checkmated")
    else some (1, "Black is checkmated")
  else if e.whiteToMove then some (0, "White is stalemated")
  else some (0, "Black is stalemated")

/-- C2: `terminal` returns true exactly when the halfmove clock is ≥ 50, the
repetition count is strictly greater than 3, material is insufficient, or
there is no legal move; the reported value is 0 for every draw cause and
∓1 for a checkmated side (White in check: −1; Black in check: +1; stalemate:
0), with the draw causes taking priority in the source's order. -/
theorem c2_terminal_detection (e : EnvPos) :
    ((terminal_str e).isSome ↔
      (50 ≤ e.halfmoveClock ∨ 3 < e.repCount ∨ insufficientMaterial e ∨
       e.legalActions = [])) ∧
    (terminal_str e).map Prod.fst =
      (if 50 ≤ e.halfmoveClock ∨ 3 < e.repCount ∨ insufficientMaterial e then
        some 0
       else if e.legalActions = [] then
        some (if e.isCheck then (if e.whiteToMove then -1 else 1) else 0)
       else none) := by
  unfold terminal_str
  split_ifs with h1 h2 h3 h4 h5 h6 h7 <;>
    simp_all [List.length_eq_zero] <;> omega
/-! ## Expansion priors (src/kami/mcts.h, `MCTS::expand`, prior blending)

`expand` renormalizes the policy over the legal actions and blends it with
fresh Gamma(1,1) noise normalized to sum 1:
`p = (1 - noise_weight) * policy[actions[i]] / ptotal
     + noise_weight * (noise[i] / total_noise)`. -/

/-- `ptotal`: the policy mass on the legal actions. -/
def ptotalOf (policy : Nat → ℚ) (actions : List Nat) : ℚ :=
  (actions.map policy).sum

/-- The child priors created by `MCTS::expand` for the given legal actions,
policy vector, noise draws and `noise_weight`. -/
def expandPriors (policy : Nat → ℚ) (actions : List Nat) (noise : List ℚ)
    (noise_weight : ℚ) : List ℚ :=
  let ptotal := ptotalOf policy actions
  let total_noise := noise.sum
  (actions.zip noise).map fun an =>
    (1 - noise_weight) * policy an.1 / ptotal + noise_weight * (an.2 / total_noise)

theorem sum_map_zip_add (f : Nat → ℚ) (g : ℚ → ℚ) :
    ∀ (xs : List Nat) (ys : List ℚ), ys.length = xs.length →
      ((xs.zip ys).map fun p => f p.1 + g p.2).sum = (xs.map f).sum + (ys.map g).sum := by
  intro xs
  induction xs with
  | nil =>
    intro ys h
    rw [List.length_nil, List.length_eq_zero] at h
    subst h; simp
  | cons x xs ih =>
    intro ys h
    cases ys with
    | nil => simp at h
    | cons y ys =>
      simp only [List.zip_cons_cons, List.map_cons, List.sum_cons]
      rw [ih ys (by simpa using h)]
      ring

theorem mem_lt_sum_of_pos {l : List ℚ} (hl : ∀ x ∈ l, 0 < x) (h2 : 2 ≤ l.length)
    {a : ℚ} (ha : a ∈ l) : a < l.sum := by
  obtain ⟨s, t, rfl⟩ := List.append_of_mem ha
  rw [List.sum_append, List.sum_cons]
  have ht : 0 ≤ t.sum := List.sum_nonneg fun y hy => le_of_lt (hl y (by simp [hy]))
  rcases s with _ | ⟨x, s'⟩
  · have htne : t ≠ [] := by intro h; subst h; simp at h2
    have : 0 < t.sum := List.sum_pos t (fun y hy => hl y (by simp [hy])) htne
    simp only [List.sum_nil]; linarith
  · have : 0 < (x :: s').sum :=
      List.sum_pos _ (fun y hy => hl y (by simp at hy ⊢; tauto)) (by simp)
    linarith

/-- C4 (amended): with at least one legal action, a non-negative policy with
positive mass on the legal actions, strictly positive noise draws (Gamma(1,1)
samples are positive), and `noise_weight ∈ [0,1]`, `expand` creates one child
per legal action whose priors sum to exactly 1 and each lie in `[0,1]`;
when there are at least two legal actions and `noise_weight ∈ (0,1]`, every
prior lies strictly in `(0,1)`.  (The claim's open interval fails when there
is a single legal action: the lone prior is exactly 1.) -/
theorem c4_expand_prior_simplex (policy : Nat → ℚ) (actions : List Nat)
    (noise : List ℚ) (nw : ℚ)
    (hlen : noise.length = actions.length)
    (hnoise : ∀ η ∈ noise, 0 < η)
    (hpol : ∀ a ∈ actions, 0 ≤ policy a)
    (hpt : 0 < ptotalOf policy actions)
    (hw0 : 0 ≤ nw) (hw1 : nw ≤ 1) :
    (expandPriors policy actions noise nw).length = actions.length ∧
    (expandPriors policy actions noise nw).sum = 1 ∧
    (∀ p ∈ expandPriors policy actions noise nw, 0 ≤ p ∧ p ≤ 1) ∧
    (2 ≤ actions.length → 0 < nw →
      ∀ p ∈ expandPriors policy actions noise nw, 0 < p ∧ p < 1) := by
  have hne : actions ≠ [] := by
    intro h; subst h; simp [ptotalOf] at hpt
  have hnne : noise ≠ [] := by
    intro h
    rw [h, List.length_nil] at hlen
    exact hne (List.length_eq_zero.mp hlen.symm)
  have htn : 0 < noise.sum := List.sum_pos noise hnoise hnne
  refine ⟨?_, ?_, ?_, ?_⟩
  · simp [expandPriors, List.length_zip, hlen]
  · unfold expandPriors
    rw [sum_map_zip_add (fun a => (1 - nw) * policy a / ptotalOf policy actions)
      (fun η => nw * (η / noise.sum)) actions noise hlen]
    have h1 : (actions.map fun a => (1 - nw) * policy a / ptotalOf policy actions).sum
        = (1 - nw) := by
      have : (actions.map fun a => (1 - nw) * policy a / ptotalOf policy actions)
          = actions.map fun a => ((1 - nw) / ptotalOf policy actions) * policy a := by
        apply List.map_congr_left; intro a _; ring
      have hps : (List.map policy actions).sum ≠ 0 := ne_of_gt hpt
      rw [this, List.sum_map_mul_left]
      unfold ptotalOf
      field_simp
    have h2 : (noise.map fun η => nw * (η / noise.sum)).sum = nw := by
      have : (noise.map fun η => nw * (η / noise.sum))
          = noise.map fun η => (nw / noise.sum) * η := by
        apply List.map_congr_left; intro a _; ring
      have hns : noise.sum ≠ 0 := ne_of_gt htn
      rw [this, List.sum_map_mul_left]
      field_simp
    rw [h1, h2]; ring
  · intro p hp
    simp only [expandPriors, List.mem_map] at hp
    obtain ⟨⟨a, η⟩, hmem, rfl⟩ := hp
    obtain ⟨ha, hη⟩ := List.of_mem_zip hmem
    have hpa : 0 ≤ policy a := hpol a ha
    have hple : policy a ≤ ptotalOf policy actions :=
      List.single_le_sum (fun x hx => by
        simp only [List.mem_map] at hx; obtain ⟨b, hb, rfl⟩ := hx; exact hpol b hb)
        _ (List.mem_map_of_mem policy ha)
    have hηle : η ≤ noise.sum :=
      List.single_le_sum (fun x hx => le_of_lt (hnoise x hx)) _ hη
    have hd1 : 0 ≤ policy a / ptotalOf policy actions := div_nonneg hpa (le_of_lt hpt)
    have hd2 : policy a / ptotalOf policy actions ≤ 1 := (div_le_one hpt).mpr hple
    have hd3 : 0 < η / noise.sum := div_pos (hnoise η hη) htn
    have hd4 : η / noise.sum ≤ 1 := (div_le_one htn).mpr hηle
    constructor
    · have : 0 ≤ (1 - nw) * (policy a / ptotalOf policy actions) :=
        mul_nonneg (by linarith) hd1
      have : 0 ≤ nw * (η / noise.sum) := mul_nonneg hw0 (le_of_lt hd3)
      rw [mul_div_assoc]
      positivity
    · rw [mul_div_assoc]
      nlinarith
  · intro h2 hnw p hp
    simp only [expandPriors, List.mem_map] at hp
    obtain ⟨⟨a, η⟩, hmem, rfl⟩ := hp
    obtain ⟨ha, hη⟩ := List.of_mem_zip hmem
    have h2n : 2 ≤ noise.length := hlen ▸ h2
    have hpa : 0 ≤ policy a := hpol a ha
    have hple : policy a ≤ ptotalOf policy actions :=
      List.single_le_sum (fun x hx => by
        simp only [List.mem_map] at hx; obtain ⟨b, hb, rfl⟩ := hx; exact hpol b hb)
        _ (List.mem_map_of_mem policy ha)
    have hηlt : η < noise.sum := mem_lt_sum_of_pos hnoise h2n hη
    have hd1 : 0 ≤ policy a / ptotalOf policy actions := div_nonneg hpa (le_of_lt hpt)
    have hd2 : policy a / ptotalOf policy actions ≤ 1 := (div_le_one hpt).mpr hple
    have hd3 : 0 < η / noise.sum := div_pos (hnoise η hη) htn
    have hd4 : η / noise.sum < 1 := (div_lt_one htn).mpr hηlt
    constructor
    · have : 0 < nw * (η / noise.sum) := mul_pos hnw hd3
      have : 0 ≤ (1 - nw) * (policy a / ptotalOf policy actions) :=
        mul_nonneg (by linarith) hd1
      rw [mul_div_assoc]
      nlinarith
    · rw [mul_div_assoc]
      nlinarith

/-- C4 witness: two legal actions with a uniform policy, unit noise and
`noise_weight = 1/20` give priors summing to 1, each in `(0,1)`. -/
theorem c4_expand_prior_simplex_witness :
    (expandPriors (fun _ => (1 : ℚ)/2) [0, 1] [1, 1] (1/20)).length = 2 ∧
    (expandPriors (fun _ => (1 : ℚ)/2) [0, 1] [1, 1] (1/20)).sum = 1 ∧
    (∀ p ∈ expandPriors (fun _ => (1 : ℚ)/2) [0, 1] [1, 1] (1/20), 0 ≤ p ∧ p ≤ 1) ∧
    (2 ≤ ([0, 1] : List Nat).length → 0 < (1/20 : ℚ) →
      ∀ p ∈ expandPriors (fun _ => (1 : ℚ)/2) [0, 1] [1, 1] (1/20), 0 < p ∧ p < 1) :=
  c4_expand_prior_simplex (fun _ => (1 : ℚ)/2) [0, 1] [1, 1] (1/20)
    (by decide) (by decide) (fun a _ => by norm_num)
    (by norm_num [ptotalOf]) (by norm_num) (by norm_num)

/-- C4 counterexample: with a single legal action (and hypotheses of the claim
satisfied: positive policy mass, positive Gamma noise, `noise_weight ∈ [0,1]`),
the unique child prior is exactly 1, which does not lie in the open interval
`(0, 1)`. -/
theorem c4_single_action_counterexample :
    expandPriors (fun _ => (1 : ℚ)) [0] [1] (1/20) = [1] ∧
    ¬(∀ p ∈ expandPriors (fun _ => (1 : ℚ)) [0] [1] (1/20), 0 < p ∧ p < 1) := by
  constructor
  · norm_num [expandPriors, ptotalOf]
  · intro h
    have := h 1 (by norm_num [expandPriors, ptotalOf])
    exact absurd this.2 (by norm_num)
/-! ## Replay buffer (src/src/replaybuffer.h)

The three parallel sample arrays are embedded as one slot map holding an
opaque sample per slot; `none` models a never-written (uninitialized) slot.
`rand()` draws are passed in as a list of numbers; the source uses
`rand() % bufsize` as the slot index for each of the `n` selections. -/

structure Sample where
  input : Nat
  lmm : Nat
  mcts : Nat
  result : ℚ
deriving DecidableEq

structure ReplayBuffer where
  bufsize : Nat
  slots : Nat → Option Sample
  write_index : Nat
  total : Nat

/-- A fresh buffer of capacity `C` (arrays allocated, nothing written). -/
def ReplayBuffer.init (C : Nat) : ReplayBuffer :=
  { bufsize := C, slots := fun _ => none, write_index := 0, total := 0 }

/-- `ReplayBuffer::add`: copy into slot `write_index`, increment it modulo
`bufsize`, increment `total`. -/
def ReplayBuffer.add (rb : ReplayBuffer) (s : Sample) : ReplayBuffer :=
  { rb with
    slots := fun i => if i = rb.write_index then some s else rb.slots i
    write_index := (rb.write_index + 1) % rb.bufsize
    total := rb.total + 1 }

/-- `ReplayBuffer::size`. -/
def ReplayBuffer.size (rb : ReplayBuffer) : Nat := rb.bufsize

/-- `ReplayBuffer::count`. -/
def ReplayBuffer.count (rb : ReplayBuffer) : Nat := rb.total

/-- `ReplayBuffer::select_batch`: for each of the `n` selections, copy the
sample at slot `rand() % bufsize`; `rs` lists the `rand()` draws. -/
def ReplayBuffer.select_batch (rb : ReplayBuffer) (rs : List Nat) : List (Option Sample) :=
  rs.map fun r => rb.slots (r % rb.bufsize)

/-- A sequence of adds. -/
def ReplayBuffer.addAll (rb : ReplayBuffer) (ss : List Sample) : ReplayBuffer :=
  ss.foldl ReplayBuffer.add rb

theorem mod_succ_mod (K C : Nat) (hC : 0 < C) : (K % C + 1) % C = (K + 1) % C := by
  conv_rhs => rw [Nat.add_mod]
  rcases Nat.lt_or_ge 1 C with h | h
  · rw [Nat.mod_eq_of_lt h]
  · have hc : C = 1 := by omega
    subst hc; simp

theorem addAll_spec (C : Nat) (hC : 0 < C) (ss : List Sample) :
    (ReplayBuffer.addAll (ReplayBuffer.init C) ss).bufsize = C ∧
    (ReplayBuffer.addAll (ReplayBuffer.init C) ss).total = ss.length ∧
    (ReplayBuffer.addAll (ReplayBuffer.init C) ss).write_index = ss.length % C ∧
    (∀ i, ((ReplayBuffer.addAll (ReplayBuffer.init C) ss).slots i).isSome ↔
      i < min ss.length C) := by
  induction ss using List.reverseRecOn with
  | nil =>
    refine ⟨rfl, rfl, by simp [ReplayBuffer.addAll, ReplayBuffer.init, Nat.zero_mod], ?_⟩
    intro i; simp [ReplayBuffer.addAll, ReplayBuffer.init]
  | append_singleton ss s ih =>
    obtain ⟨ihb, iht, ihw, ihs⟩ := ih
    have hfold : ReplayBuffer.addAll (ReplayBuffer.init C) (ss ++ [s]) =
        (ReplayBuffer.addAll (ReplayBuffer.init C) ss).add s := by
      simp [ReplayBuffer.addAll, List.foldl_append]
    rw [hfold]
    refine ⟨by simp [ReplayBuffer.add, ihb], by simp [ReplayBuffer.add, iht], ?_, ?_⟩
    · show ((ReplayBuffer.addAll (ReplayBuffer.init C) ss).write_index + 1) %
        (ReplayBuffer.addAll (ReplayBuffer.init C) ss).bufsize = (ss ++ [s]).length % C
      rw [ihb, ihw, List.length_append]
      simp only [List.length_cons, List.length_nil, Nat.zero_add]
      exact mod_succ_mod ss.length C hC
    · intro i
      show (if i = (ReplayBuffer.addAll (ReplayBuffer.init C) ss).write_index
        then some s else (ReplayBuffer.addAll (ReplayBuffer.init C) ss).slots i).isSome ↔
        i < min (ss ++ [s]).length C
      rw [ihw, List.length_append]
      have hmod := Nat.mod_lt ss.length hC
      by_cases hi : i = ss.length % C
      · subst hi
        simp only [eq_self_iff_true, if_true, Option.isSome_some, true_iff,
          List.length_cons, List.length_nil]
        rcases Nat.lt_or_ge ss.length C with h | h
        · have hm : ss.length % C = ss.length := Nat.mod_eq_of_lt h
          omega
        · omega
      · rw [if_neg hi, ihs i]
        simp only [List.length_cons, List.length_nil]
        rcases Nat.lt_or_ge ss.length C with h | h
        · have hm : ss.length % C = ss.length := Nat.mod_eq_of_lt h
          omega
        · omega

/-- C6 (amended): after `K` adds into a fresh buffer of capacity `C`,
`count() = K`, `size() = C`, `write_index = K mod C`, and exactly
`min K C` slots are populated (so exactly `C` once `K ≥ C`);
`select_batch` draws each of its `n` samples from slot `rand() % C` — over
*all* `C` slots, populated or not — so its results are guaranteed to come
from populated slots only once `K ≥ C`.  (The claim's "only from populated
slots" fails for `K < C`: see the counterexample.) -/
theorem c6_replay_buffer (C : Nat) (hC : 0 < C) (ss : List Sample) (rs : List Nat) :
    (ReplayBuffer.addAll (ReplayBuffer.init C) ss).size = C ∧
    (ReplayBuffer.addAll (ReplayBuffer.init C) ss).count = ss.length ∧
    (ReplayBuffer.addAll (ReplayBuffer.init C) ss).write_index = ss.length % C ∧
    (∀ i, ((ReplayBuffer.addAll (ReplayBuffer.init C) ss).slots i).isSome ↔
      i < min ss.length C) ∧
    ((ReplayBuffer.addAll (ReplayBuffer.init C) ss).select_batch rs).length = rs.length ∧
    (∀ x ∈ (ReplayBuffer.addAll (ReplayBuffer.init C) ss).select_batch rs,
      ∃ r ∈ rs, x = (ReplayBuffer.addAll (ReplayBuffer.init C) ss).slots (r % C)) ∧
    (C ≤ ss.length →
      ∀ x ∈ (ReplayBuffer.addAll (ReplayBuffer.init C) ss).select_batch rs, x.isSome) := by
  obtain ⟨hb, ht, hw, hs⟩ := addAll_spec C hC ss
  refine ⟨hb, ht, hw, hs, ?_, ?_, ?_⟩
  · simp [ReplayBuffer.select_batch]
  · intro x hx
    simp only [ReplayBuffer.select_batch, List.mem_map] at hx
    obtain ⟨r, hr, rfl⟩ := hx
    exact ⟨r, hr, by rw [hb]⟩
  · intro hK x hx
    simp only [ReplayBuffer.select_batch, List.mem_map] at hx
    obtain ⟨r, hr, rfl⟩ := hx
    rw [hs]
    rw [hb]
    have := Nat.mod_lt r hC
    omega

/-- C6 witness: capacity 2, three adds, two draws. -/
theorem c6_replay_buffer_witness :
    (ReplayBuffer.addAll (ReplayBuffer.init 2) [⟨0,0,0,0⟩, ⟨1,0,0,0⟩, ⟨2,0,0,0⟩]).size = 2 ∧
    (ReplayBuffer.addAll (ReplayBuffer.init 2) [⟨0,0,0,0⟩, ⟨1,0,0,0⟩, ⟨2,0,0,0⟩]).count = 3 ∧
    (ReplayBuffer.addAll (ReplayBuffer.init 2)
      [⟨0,0,0,0⟩, ⟨1,0,0,0⟩, ⟨2,0,0,0⟩]).write_index = 3 % 2 ∧
    (∀ i, ((ReplayBuffer.addAll (ReplayBuffer.init 2)
      [⟨0,0,0,0⟩, ⟨1,0,0,0⟩, ⟨2,0,0,0⟩]).slots i).isSome ↔ i < min 3 2) ∧
    ((ReplayBuffer.addAll (ReplayBuffer.init 2)
      [⟨0,0,0,0⟩, ⟨1,0,0,0⟩, ⟨2,0,0,0⟩]).select_batch [0, 3]).length = 2 ∧
    (∀ x ∈ (ReplayBuffer.addAll (ReplayBuffer.init 2)
        [⟨0,0,0,0⟩, ⟨1,0,0,0⟩, ⟨2,0,0,0⟩]).select_batch [0, 3],
      ∃ r ∈ [0, 3], x = (ReplayBuffer.addAll (ReplayBuffer.init 2)
        [⟨0,0,0,0⟩, ⟨1,0,0,0⟩, ⟨2,0,0,0⟩]).slots (r % 2)) ∧
    (2 ≤ 3 →
      ∀ x ∈ (ReplayBuffer.addAll (ReplayBuffer.init 2)
        [⟨0,0,0,0⟩, ⟨1,0,0,0⟩, ⟨2,0,0,0⟩]).select_batch [0, 3], x.isSome) := by
  have h := c6_replay_buffer 2 (by decide) [⟨0,0,0,0⟩, ⟨1,0,0,0⟩, ⟨2,0,0,0⟩] [0, 3]
  simpa using h

/-- C6 counterexample: capacity 2 after a single add (`K = 1 < C = 2`), a
draw of slot 1 makes `select_batch` copy the uninitialized slot 1 — it does
not sample "only from populated slots". -/
theorem c6_unpopulated_slot_counterexample :
    ((ReplayBuffer.init 2).add ⟨7, 0, 0, 0⟩).select_batch [1] = [none] ∧
    ¬(((ReplayBuffer.init 2).add ⟨7, 0, 0, 0⟩).slots 1).isSome := by
  constructor
  · simp [ReplayBuffer.select_batch, ReplayBuffer.add, ReplayBuffer.init]
  · simp [ReplayBuffer.add, ReplayBuffer.init]

/-! ## Model generation (src/src/nn/nn.cpp and `Selfplay::training_main`)

The torch module itself is opaque; its parameters are an abstract `weights`
value and `train`'s SGD epochs an abstract update `f`.  What the claims track
is the integer `generation`: `train` ends with `++generation`; the clone
constructor `NN::NN(NN*)` copies `generation`; `write` stores it in the
archive under the "generation" key and `read` restores it. -/

structure NN where
  generation : Nat
  weights : Nat

/-- `NN::train`: SGD epochs (abstracted by `f`), then `++generation`. -/
def NN.train (f : Nat → Nat) (m : NN) : NN :=
  { generation := m.generation + 1, weights := f m.weights }

/-- `NN::NN(NN* other)`: serialize/deserialize copy keeping `generation`. -/
def NN.clone (m : NN) : NN := m

structure Checkpoint where
  generation : Nat
  weights : Nat

/-- `NN::write`: save the module and `a.write("generation", generation)`. -/
def NN.write (m : NN) : Checkpoint := ⟨m.generation, m.weights⟩

/-- `NN::read`: load the module and `generation = genvalue.toInt()`. -/
def NN.read (_ : NN) (c : Checkpoint) : NN := ⟨c.generation, c.weights⟩

/-- The accept/reject tail of one `Selfplay::training_main` iteration:
`NN cmodel(model); cmodel.train(...);` then, when the evaluator accepts,
`cmodel.write(modelpath); model->read(modelpath)`; otherwise the production
model is untouched. -/
def trainerStep (f : Nat → Nat) (m : NN) (accepted : Bool) : NN :=
  let cmodel := NN.train f (NN.clone m)
  if accepted then NN.read m (NN.write cmodel) else m

/-- A full run of trainer iterations with the given evaluator verdicts. -/
def trainerRun (f : Nat → Nat) (m : NN) (evals : List Bool) : NN :=
  evals.foldl (trainerStep f) m

theorem trainerRun_generation (f : Nat → Nat) (m : NN) (evals : List Bool) :
    (trainerRun f m evals).generation = m.generation + evals.count true := by
  induction evals generalizing m with
  | nil => simp [trainerRun]
  | cons b evals ih =>
    simp only [trainerRun, List.foldl_cons] at *
    rw [ih]
    cases b <;>
      simp [trainerStep, NN.train, NN.clone, NN.read, NN.write, List.count_cons]
    omega

/-- C8: the production model's generation is non-decreasing across the run;
a `train` increments it by exactly one, `clone` preserves it, and `read`
after `write` restores it; one trainer iteration leaves the generation
unchanged on a rejected candidate and increments it by exactly one (strict
increase) exactly when the evaluator accepted; hence after any run the
generation is the initial one plus the number of accepted evaluations. -/
theorem c8_generation_monotonic (f : Nat → Nat) (m : NN) (evals : List Bool) (b : Bool) :
    (NN.train f m).generation = m.generation + 1 ∧
    (NN.clone m).generation = m.generation ∧
    (NN.read m (NN.write (NN.train f (NN.clone m)))).generation = m.generation + 1 ∧
    (trainerRun f m evals).generation ≤ (trainerRun f m (evals ++ [b])).generation ∧
    ((trainerRun f m evals).generation < (trainerRun f m (evals ++ [b])).generation ↔
      b = true) ∧
    (trainerRun f m evals).generation = m.generation + evals.count true := by
  have hrun := trainerRun_generation f m evals
  have hrun' := trainerRun_generation f m (evals ++ [b])
  rw [List.count_append] at hrun'
  refine ⟨rfl, rfl, rfl, ?_, ?_, hrun⟩
  · rw [hrun, hrun']; cases b <;> simp [List.count_cons]
  · rw [hrun, hrun']; cases b <;> simp [List.count_cons]

/-- C8 witness: a run with verdicts [accept, reject, accept]. -/
theorem c8_generation_monotonic_witness :
    (NN.train id ⟨0, 0⟩).generation = 1 ∧
    (NN.clone ⟨0, 0⟩).generation = 0 ∧
    (NN.read ⟨0, 0⟩ (NN.write (NN.train id (NN.clone ⟨0, 0⟩)))).generation = 1 ∧
    (trainerRun id ⟨0, 0⟩ [true, false]).generation ≤
      (trainerRun id ⟨0, 0⟩ ([true, false] ++ [true])).generation ∧
    ((trainerRun id ⟨0, 0⟩ [true, false]).generation <
      (trainerRun id ⟨0, 0⟩ ([true, false] ++ [true])).generation ↔ true = true) ∧
    (trainerRun id ⟨0, 0⟩ [true, false]).generation = 0 + [true, false].count true := by
  have h := c8_generation_monotonic id ⟨0, 0⟩ [true, false] true
  simpa using h

/-! ## Trajectory labeling (src/kami/selfplay.cpp, `Selfplay::inference_main`)

At a root commit the worker snapshots the observation and MCTS policy and
captures `pov = -env.turn()` *before* `pick`/`push`; the push then negates
`curturn`.  When the game ends with value `v`, each captured trajectory is
appended with `draw_value` when `v = 0` and `pov * v` otherwise. -/

structure Traj where
  inputs : Nat
  mcts : Nat
  pov : ℚ
deriving DecidableEq

/-- One root commit: capture `pov = -turn`, then `push` flips the turn. -/
def commitCapture (turn : ℚ) (obs mcts : Nat) : Traj × ℚ :=
  (⟨obs, mcts, -turn⟩, -turn)

/-- A run of `n` root commits from the given environment turn. -/
def runCommits : Nat → ℚ → List Traj
  | 0, _ => []
  | n + 1, turn =>
    let r := commitCapture turn 0 0
    r.1 :: runCommits n r.2

/-- The terminal hand-off to the replay buffer: every trajectory is added
with `draw_value` when `value == 0` and `pov * value` otherwise. -/
def labelTrajs (value draw_value : ℚ) (ts : List Traj) : List (Traj × ℚ) :=
  if value = 0 then ts.map fun t => (t, draw_value)
  else ts.map fun t => (t, t.pov * value)

theorem runCommits_eq (n : Nat) : ∀ t : ℚ,
    runCommits n t = (List.range n).map fun j => ⟨0, 0, -((-1) ^ j * t)⟩ := by
  induction n with
  | zero => intro t; simp [runCommits]
  | succ n ih =>
    intro t
    rw [runCommits, List.range_succ_eq_map, List.map_cons]
    simp only [commitCapture]
    rw [ih (-t), List.map_map]
    refine congrArg₂ _ (by simp) ?_
    apply List.map_congr_left
    intro j _
    simp only [Function.comp_apply, Traj.mk.injEq, Nat.succ_eq_add_one, pow_succ, true_and]
    ring

/-- C5: at every root commit the captured `pov` is `-turn` for the turn
*before* the environment transition (so the `j`-th commit of a game records
`pov = -(-1)^j`), and at the terminal state with value `v` each captured
trajectory is labeled `draw_value` when `v = 0` and `pov·v` otherwise. -/
theorem c5_trajectory_labeling (turn v dv : ℚ) (obs mcts n : Nat) :
    (commitCapture turn obs mcts).1.pov = -turn ∧
    (commitCapture turn obs mcts).2 = -turn ∧
    labelTrajs v dv (runCommits n 1) =
      (List.range n).map fun j =>
        (⟨0, 0, -((-1) ^ j)⟩, if v = 0 then dv else -((-1) ^ j) * v) := by
  refine ⟨rfl, rfl, ?_⟩
  rw [runCommits_eq n 1]
  unfold labelTrajs
  by_cases hv : v = 0
  · rw [if_pos hv, List.map_map]
    apply List.map_congr_left
    intro j _
    simp [hv]
  · rw [if_neg hv, List.map_map]
    apply List.map_congr_left
    intro j _
    simp [hv]
/-! ## The MCTS tree (src/kami/mcts.h)

`Node { int n; float w, p; int action; children; parent; float turn }` becomes
a rose tree; parent pointers are represented by paths from the root (lists of
child indices), and `MCTS`'s `env`/`target` state by `MState` below.  Float
fields are embedded as `ℚ`. -/

inductive KTree where
  | node (n : Nat) (w : ℚ) (p : ℚ) (action : Int) (turn : ℚ) (children : List KTree)

def KTree.n : KTree → Nat
  | .node n _ _ _ _ _ => n

def KTree.w : KTree → ℚ
  | .node _ w _ _ _ _ => w

def KTree.p : KTree → ℚ
  | .node _ _ p _ _ _ => p

def KTree.action : KTree → Int
  | .node _ _ _ a _ _ => a

def KTree.turn : KTree → ℚ
  | .node _ _ _ _ t _ => t

def KTree.children : KTree → List KTree
  | .node _ _ _ _ _ cs => cs

/-- The sum `Σ children.n`. -/
def childSum (cs : List KTree) : Nat := (cs.map KTree.n).sum

/-- Replace the `i`-th element of a list. -/
def modifyIdx (f : KTree → KTree) : Nat → List KTree → List KTree
  | _, [] => []
  | 0, x :: xs => f x :: xs
  | i + 1, x :: xs => x :: modifyIdx f i xs

/-- The node reached from `t` along a path of child indices. -/
def nodeAt : KTree → List Nat → KTree
  | t, [] => t
  | t, i :: rest => nodeAt ((t.children.getD i (.node 0 0 0 0 0 []))) rest

/-- `Node::backprop` along the path from the root to the target node:
each node on the path gets `n += 1; w += 0.5 + (value * turn) / 2`,
using its own `turn`, exactly as the parent-pointer recursion does. -/
def backpropPath (v : ℚ) : List Nat → KTree → KTree
  | [], .node n w p a t cs => .node (n + 1) (w + (1/2 + v * t / 2)) p a t cs
  | i :: rest, .node n w p a t cs =>
      .node (n + 1) (w + (1/2 + v * t / 2)) p a t (modifyIdx (backpropPath v rest) i cs)

/-- `MCTS::expand`'s child creation at the target node: each new child is
`{n = 0, w = 0, p = prior, action, turn = -target.turn}` pushed onto the
target's child vector. -/
def expandLeaf (acts : List (Int × ℚ)) : List Nat → KTree → KTree
  | [], .node n w p a t cs =>
      .node n w p a t (cs ++ acts.map fun ap => .node 0 0 ap.2 ap.1 (-t) [])
  | i :: rest, .node n w p a t cs =>
      .node n w p a t (modifyIdx (expandLeaf acts rest) i cs)

/-- A valid selection path: descends through existing children and ends at a
node with no children (an unexpanded node). -/
inductive SelPath : KTree → List Nat → Prop
  | leaf (t : KTree) : t.children = [] → SelPath t []
  | step (t : KTree) (i : Nat) (rest : List Nat) (h : i < t.children.length) :
      SelPath (t.children.get ⟨i, h⟩) rest → SelPath t (i :: rest)

/-- The actions pushed into the environment while descending `path`. -/
def actionsAlong : KTree → List Nat → List Int
  | _, [] => []
  | t, i :: rest =>
      let c := t.children.getD i (.node 0 0 0 0 0 [])
      c.action :: actionsAlong c rest

/-- A property of every node of a tree. -/
inductive AllNodes (P : KTree → Prop) : KTree → Prop
  | mk (t : KTree) : P t → (∀ c ∈ t.children, AllNodes P c) → AllNodes P t

/-- The `MCTS` object state relevant to the tree claims: the root node, the
`target` pointer (as a path from the root), and the actions the shared
environment has been pushed along beyond the root position. -/
structure MState where
  root : KTree
  target : Option (List Nat)
  envPath : List Int

/-- A fresh tree (`MCTS::MCTS` / `MCTS::reset`): a new root node with
`turn = -env.turn() = -1`, environment at the root, no target. -/
def MState.fresh : MState :=
  { root := .node 0 0 0 (-1) (-1) [], target := none, envPath := [] }

/-- The result of one `MCTS::select` call. -/
inductive SelResult where
  | ready (path : List Nat) (env : List Int)
  | terminalBP (path : List Nat) (value : ℚ)

/-- The recursive descent of `MCTS::select`: starting at the target (the root
on entry), if the current node has no children, test the environment for a
terminal value (backprop it and reset when terminal, else report ready);
otherwise push the chosen child's action and recurse into it.  The UCT /
`force_expand_unvisited` choice of child is abstracted by `choose` (the
claimed invariants hold for every choice); `isTerm` gives the terminal value
of the environment position reached by a sequence of pushed actions. -/
def selectGo (choose : KTree → Nat) (isTerm : List Int → Option ℚ) :
    KTree → List Nat → List Int → SelResult
  | t, path, env =>
    match _hcs : t.children with
    | [] =>
      match isTerm env with
      | some v => .terminalBP path v
      | none => .ready path env
    | c0 :: crest =>
      let cs := c0 :: crest
      let i := choose t % cs.length
      have hi : i < cs.length := Nat.mod_lt _ (Nat.succ_pos crest.length)
      let c := cs.get ⟨i, hi⟩
      selectGo choose isTerm c (path ++ [i]) (env ++ [c.action])
termination_by t _ _ => sizeOf t
decreasing_by
  calc sizeOf (cs.get ⟨i, hi⟩) < sizeOf cs := List.sizeOf_lt_of_mem (cs.get_mem i hi)
    _ = sizeOf (c0 :: crest) := rfl
    _ < sizeOf t := by
        cases t; simp_all [KTree.children, List.cons.sizeOf_spec]

/-- `MCTS::select` at the state level.  In the select/expand protocol the
entry state always has `target = nullptr`, so selection starts at the root
(`if (!target) target = root`).  On `ready` the environment stays pushed at
the leaf and `target` points to it; on a terminal leaf the value is
backpropagated, the environment is popped back to the root and `target` is
cleared. -/
def selectStep (choose : KTree → Nat) (isTerm : List Int → Option ℚ) (st : MState) :
    Bool × MState :=
  match selectGo choose isTerm st.root [] st.envPath with
  | .ready path env => (true, { st with target := some path, envPath := env })
  | .terminalBP path v =>
      (false, { root := backpropPath v path st.root, target := none, envPath := st.envPath })

/-- `n` iterations of `env.pop()`. -/
def popN : Nat → List Int → List Int
  | 0, l => l
  | k + 1, l => popN k l.dropLast

/-- The backup value of `MCTS::expand`: `value *= target->turn`, then the
optional bootstrap blend
`value = (1-bw)·value + bw · env.bootstrap_value(window) · amp`. -/
def effValue (value turn bootstrapVal bw amp : ℚ) (disable : Bool) : ℚ :=
  let v := value * turn
  if ¬disable ∧ 0 < bw then (1 - bw) * v + bw * bootstrapVal * amp else v

/-- `MCTS::expand`: create one child per legal action with the blended priors
(see `expandPriors`), back-propagate the effective value from the target, pop
the environment once per level, and clear `target`.  Outside the protocol
(`target = nullptr`) it leaves the state unchanged (the source would
dereference a null target). -/
def expandStep (policy : Nat → ℚ) (noise : List ℚ) (nw : ℚ) (actions : List Nat)
    (value bootstrapVal bw amp : ℚ) (disable : Bool) (st : MState) : MState :=
  match st.target with
  | none => st
  | some path =>
      let tnode := nodeAt st.root path
      let acts := (actions.map Int.ofNat).zip (expandPriors policy actions noise nw)
      let veff := effValue value tnode.turn bootstrapVal bw amp disable
      { root := backpropPath veff path (expandLeaf acts path st.root)
        target := none
        envPath := popN path.length st.envPath }

theorem allNodes_iff (P : KTree → Prop) (t : KTree) :
    AllNodes P t ↔ P t ∧ ∀ c ∈ t.children, AllNodes P c := by
  constructor
  · intro h
    cases h with
    | mk _ h1 h2 => exact ⟨h1, h2⟩
  · intro h
    exact AllNodes.mk t h.1 h.2

theorem selPath_cons (t : KTree) (i : Nat) (rest : List Nat) :
    SelPath t (i :: rest) →
    ∃ h : i < t.children.length, SelPath (t.children.get ⟨i, h⟩) rest := by
  intro hp
  cases hp with
  | step _ _ _ h hs => exact ⟨h, hs⟩

theorem selPath_nil (t : KTree) : SelPath t [] → t.children = [] := by
  intro hp
  cases hp with
  | leaf _ h => exact h

theorem getD_eq_get : ∀ (l : List KTree) (i : Nat) (h : i < l.length),
    l.getD i (.node 0 0 0 0 0 []) = l.get ⟨i, h⟩ := by
  intro l
  induction l with
  | nil => intro i h; simp at h
  | cons x xs ih =>
    intro i h
    cases i with
    | zero => rfl
    | succ i => exact ih i (by simpa using h)

theorem backpropPath_n (v : ℚ) : ∀ (p : List Nat) (t : KTree),
    (backpropPath v p t).n = t.n + 1 := by
  intro p t
  cases p <;> cases t <;> rfl

theorem expandLeaf_n (acts : List (Int × ℚ)) : ∀ (p : List Nat) (t : KTree),
    (expandLeaf acts p t).n = t.n := by
  intro p t
  cases p <;> cases t <;> rfl

theorem length_modifyIdx (f : KTree → KTree) : ∀ (i : Nat) (cs : List KTree),
    (modifyIdx f i cs).length = cs.length := by
  intro i
  induction i with
  | zero => intro cs; cases cs <;> simp [modifyIdx]
  | succ i ih => intro cs; cases cs <;> simp [modifyIdx, ih]

theorem childSum_modifyIdx (f : KTree → KTree) (k : Nat)
    (hf : ∀ c, (f c).n = c.n + k) : ∀ (i : Nat) (cs : List KTree), i < cs.length →
    childSum (modifyIdx f i cs) = childSum cs + k := by
  intro i
  induction i with
  | zero =>
    intro cs hi
    cases cs with
    | nil => simp at hi
    | cons c cs => simp [modifyIdx, childSum, hf c]; ring
  | succ i ih =>
    intro cs hi
    cases cs with
    | nil => simp at hi
    | cons c cs =>
      simp only [modifyIdx, childSum, List.map_cons, List.sum_cons]
      have := ih cs (by simpa using hi)
      simp only [childSum] at this
      rw [this]; ring

theorem mem_modifyIdx (f : KTree → KTree) : ∀ (i : Nat) (cs : List KTree)
    (c' : KTree), c' ∈ modifyIdx f i cs → c' ∈ cs ∨ ∃ c ∈ cs, c' = f c := by
  intro i
  induction i with
  | zero =>
    intro cs c' h
    cases cs with
    | nil => simp [modifyIdx] at h
    | cons c cs =>
      simp only [modifyIdx, List.mem_cons] at h
      rcases h with h | h
      · exact Or.inr ⟨c, List.mem_cons_self c cs, h⟩
      · exact Or.inl (List.mem_cons_of_mem c h)
  | succ i ih =>
    intro cs c' h
    cases cs with
    | nil => simp [modifyIdx] at h
    | cons c cs =>
      simp only [modifyIdx, List.mem_cons] at h
      rcases h with h | h
      · exact Or.inl (h ▸ List.mem_cons_self c cs)
      · rcases ih cs c' h with h' | ⟨c₀, hc₀, rfl⟩
        · exact Or.inl (List.mem_cons_of_mem c h')
        · exact Or.inr ⟨c₀, List.mem_cons_of_mem c hc₀, rfl⟩

/-- The per-node invariant: `0 ≤ w ≤ n` and `turn ∈ {1, -1}`. -/
def NodeInv (t : KTree) : Prop :=
  (0 ≤ t.w ∧ t.w ≤ (t.n : ℚ)) ∧ (t.turn = 1 ∨ t.turn = -1)

theorem nodeInv_update (n : Nat) (w pp : ℚ) (a : Int) (tn : ℚ) (cs : List KTree)
    (v : ℚ) (hv : -1 ≤ v ∧ v ≤ 1)
    (h : NodeInv (.node n w pp a tn cs)) :
    NodeInv (.node (n + 1) (w + (1/2 + v * tn / 2)) pp a tn cs) := by
  obtain ⟨⟨hw0, hwn⟩, hturn⟩ := h
  simp only [NodeInv, KTree.w, KTree.n, KTree.turn] at *
  refine ⟨⟨?_, ?_⟩, hturn⟩
  · rcases hturn with h | h <;> rw [h] at * <;> nlinarith
  · rcases hturn with h | h <;> rw [h] at * <;> push_cast <;> nlinarith

theorem allNodes_backprop (v : ℚ) (hv : -1 ≤ v ∧ v ≤ 1) : ∀ (p : List Nat) (t : KTree),
    AllNodes NodeInv t → AllNodes NodeInv (backpropPath v p t) := by
  intro p
  induction p with
  | nil =>
    intro t ht
    rw [allNodes_iff] at ht
    obtain ⟨hroot, hkids⟩ := ht
    cases t with
    | node n w pp a tn cs =>
      rw [allNodes_iff]
      exact ⟨nodeInv_update n w pp a tn cs v hv hroot, fun c hc => hkids c hc⟩
  | cons i rest ih =>
    intro t ht
    rw [allNodes_iff] at ht
    obtain ⟨hroot, hkids⟩ := ht
    cases t with
    | node n w pp a tn cs =>
      rw [allNodes_iff]
      refine ⟨nodeInv_update n w pp a tn cs v hv hroot, ?_⟩
      intro c hc
      simp only [backpropPath, KTree.children] at hc
      rcases mem_modifyIdx _ i cs c hc with h | ⟨c₀, hc₀, rfl⟩
      · exact hkids c h
      · exact ih c₀ (hkids c₀ hc₀)

theorem allNodes_expandLeaf (acts : List (Int × ℚ)) : ∀ (p : List Nat) (t : KTree),
    AllNodes NodeInv t → AllNodes NodeInv (expandLeaf acts p t) := by
  intro p
  induction p with
  | nil =>
    intro t ht
    rw [allNodes_iff] at ht
    obtain ⟨hroot, hkids⟩ := ht
    cases t with
    | node n w pp a tn cs =>
      rw [allNodes_iff]
      refine ⟨hroot, ?_⟩
      intro c hc
      simp only [expandLeaf, KTree.children] at hc
      rcases List.mem_append.mp hc with h | h
      · exact hkids c h
      · simp only [List.mem_map] at h
        obtain ⟨ap, -, rfl⟩ := h
        rw [allNodes_iff]
        refine ⟨?_, by intro c hc; simp [KTree.children] at hc⟩
        obtain ⟨-, hturn⟩ := hroot
        simp only [NodeInv, KTree.w, KTree.n, KTree.turn] at *
        refine ⟨by norm_num, ?_⟩
        rcases hturn with h | h <;> rw [h] <;> simp
  | cons i rest ih =>
    intro t ht
    rw [allNodes_iff] at ht
    obtain ⟨hroot, hkids⟩ := ht
    cases t with
    | node n w pp a tn cs =>
      rw [allNodes_iff]
      refine ⟨hroot, ?_⟩
      intro c hc
      simp only [expandLeaf, KTree.children] at hc
      rcases mem_modifyIdx _ i cs c hc with h | ⟨c₀, hc₀, rfl⟩
      · exact hkids c h
      · exact ih c₀ (hkids c₀ hc₀)

theorem allNodes_nodeAt : ∀ (p : List Nat) (t : KTree), AllNodes NodeInv t →
    SelPath t p → NodeInv (nodeAt t p) := by
  intro p
  induction p with
  | nil =>
    intro t ht _
    rw [allNodes_iff] at ht
    exact ht.1
  | cons i rest ih =>
    intro t ht hp
    obtain ⟨h, hrest⟩ := selPath_cons t i rest hp
    rw [allNodes_iff] at ht
    simp only [nodeAt, getD_eq_get t.children i h]
    exact ih _ (ht.2 _ (t.children.get_mem i h)) hrest

/-- The root arithmetic invariant: a fresh root, or `n = Σ children.n + 1`
with at least one child. -/
def RootInv (t : KTree) : Prop :=
  (t.children = [] ∧ t.n = 0) ∨ (t.children ≠ [] ∧ t.n = childSum t.children + 1)

theorem root_backprop_sum (v : ℚ) (i : Nat) (rest : List Nat) (t : KTree)
    (hi : i < t.children.length) :
    (backpropPath v (i :: rest) t).n = t.n + 1 ∧
    childSum (backpropPath v (i :: rest) t).children = childSum t.children + 1 ∧
    (backpropPath v (i :: rest) t).children ≠ [] := by
  cases t with
  | node n w pp a tn cs =>
    simp only [KTree.children] at hi
    refine ⟨rfl, ?_, ?_⟩
    · show childSum (modifyIdx (backpropPath v rest) i cs) = childSum cs + 1
      exact childSum_modifyIdx _ 1 (fun c => backpropPath_n v rest c) i cs hi
    · show modifyIdx (backpropPath v rest) i cs ≠ []
      intro h
      have := length_modifyIdx (backpropPath v rest) i cs
      rw [h] at this
      simp at this
      omega

theorem root_expand_sum (acts : List (Int × ℚ)) (i : Nat) (rest : List Nat) (t : KTree)
    (hi : i < t.children.length) :
    (expandLeaf acts (i :: rest) t).n = t.n ∧
    childSum (expandLeaf acts (i :: rest) t).children = childSum t.children ∧
    (expandLeaf acts (i :: rest) t).children.length = t.children.length := by
  cases t with
  | node n w pp a tn cs =>
    simp only [KTree.children] at hi ⊢
    refine ⟨rfl, ?_, ?_⟩
    · show childSum (modifyIdx (expandLeaf acts rest) i cs) = childSum cs
      have := childSum_modifyIdx (expandLeaf acts rest) 0
        (fun c => by rw [expandLeaf_n acts rest c]; omega) i cs hi
      simpa using this
    · exact length_modifyIdx _ i cs

theorem root_expand_nil_sum (acts : List (Int × ℚ)) (t : KTree) :
    (expandLeaf acts [] t).n = t.n ∧
    childSum (expandLeaf acts [] t).children = childSum t.children ∧
    (expandLeaf acts [] t).children = t.children ++
      acts.map (fun ap => .node 0 0 ap.2 ap.1 (-t.turn) []) := by
  cases t with
  | node n w pp a tn cs =>
    refine ⟨rfl, ?_, rfl⟩
    show childSum (cs ++ acts.map fun ap => KTree.node 0 0 ap.2 ap.1 (-tn) []) = childSum cs
    simp only [childSum, List.map_append, List.sum_append, List.map_map]
    have hz : ((acts.map fun ap : Int × ℚ => KTree.node 0 0 ap.2 ap.1 (-tn) []).map
        KTree.n).sum = 0 := by
      rw [List.map_map]
      have he : (KTree.n ∘ fun ap : Int × ℚ => KTree.node 0 0 ap.2 ap.1 (-tn) []) =
          fun _ => 0 := by
        funext ap; rfl
      rw [he]
      simp
    simp only [List.map_map] at hz ⊢
    omega

theorem actionsAlong_cons (t : KTree) (i : Nat) (rest : List Nat) :
    actionsAlong t (i :: rest) =
      (t.children.getD i (.node 0 0 0 0 0 [])).action ::
        actionsAlong (t.children.getD i (.node 0 0 0 0 0 [])) rest := rfl

theorem nodeAt_cons (t : KTree) (i : Nat) (rest : List Nat) :
    nodeAt t (i :: rest) = nodeAt (t.children.getD i (.node 0 0 0 0 0 [])) rest := rfl

theorem actionsAlong_length : ∀ (p : List Nat) (t : KTree),
    (actionsAlong t p).length = p.length := by
  intro p
  induction p with
  | nil => intro t; rfl
  | cons i rest ih => intro t; simp [actionsAlong_cons, ih]

theorem popN_all : ∀ (n : Nat) (l : List Int), l.length = n → popN n l = [] := by
  intro n
  induction n with
  | zero =>
    intro l h
    rw [List.length_eq_zero] at h
    simp [popN, h]
  | succ n ih =>
    intro l h
    rw [popN]
    exact ih _ (by rw [List.length_dropLast, h]; rfl)

theorem backpropPath_nil_children (v : ℚ) (t : KTree) :
    (backpropPath v [] t).children = t.children := by
  cases t; rfl

theorem selectGo_spec (choose : KTree → Nat) (isTerm : List Int → Option ℚ) :
    ∀ (t : KTree) (path0 : List Nat) (env0 : List Int),
    (∀ path env, selectGo choose isTerm t path0 env0 = .ready path env →
       ∃ rel, path = path0 ++ rel ∧ SelPath t rel ∧
         env = env0 ++ actionsAlong t rel ∧
         (nodeAt t rel).children = [] ∧ isTerm env = none) ∧
    (∀ path v, selectGo choose isTerm t path0 env0 = .terminalBP path v →
       ∃ rel, path = path0 ++ rel ∧ SelPath t rel ∧
         (nodeAt t rel).children = [] ∧
         isTerm (env0 ++ actionsAlong t rel) = some v) := by
  have main : ∀ (N : Nat) (t : KTree), sizeOf t ≤ N → ∀ (path0 : List Nat)
      (env0 : List Int),
      (∀ path env, selectGo choose isTerm t path0 env0 = .ready path env →
        ∃ rel, path = path0 ++ rel ∧ SelPath t rel ∧
          env = env0 ++ actionsAlong t rel ∧
          (nodeAt t rel).children = [] ∧ isTerm env = none) ∧
      (∀ path v, selectGo choose isTerm t path0 env0 = .terminalBP path v →
        ∃ rel, path = path0 ++ rel ∧ SelPath t rel ∧
          (nodeAt t rel).children = [] ∧
          isTerm (env0 ++ actionsAlong t rel) = some v) := by
    intro N
    induction N with
    | zero =>
      intro t h
      exfalso
      cases t
      simp at h
    | succ N ihN =>
      intro t hsz path0 env0
      rcases hcs : t.children with _ | ⟨c0, crest⟩
      · -- leaf: selectGo tests the terminal oracle
        have heq : selectGo choose isTerm t path0 env0 =
            match isTerm env0 with
            | some v => .terminalBP path0 v
            | none => .ready path0 env0 := by
          rw [selectGo]
          cases t with
          | node n w pp a tn cs =>
            simp only [KTree.children] at hcs
            subst hcs
            rfl
        constructor
        · intro path env h
          rw [heq] at h
          rcases hterm : isTerm env0 with _ | v <;> rw [hterm] at h
          · cases h
            refine ⟨[], by simp, SelPath.leaf t hcs, by simp [actionsAlong], ?_, hterm⟩
            simpa [nodeAt] using hcs
          · cases h
        · intro path v h
          rw [heq] at h
          rcases hterm : isTerm env0 with _ | v' <;> rw [hterm] at h
          · cases h
          · cases h
            refine ⟨[], by simp, SelPath.leaf t hcs, ?_, ?_⟩
            · simpa [nodeAt] using hcs
            · simpa [actionsAlong] using hterm
      · -- interior: selectGo recurses into the chosen child
        have hlen : 0 < t.children.length := by rw [hcs]; simp
        have hi : choose t % t.children.length < t.children.length :=
          Nat.mod_lt _ hlen
        have heq : selectGo choose isTerm t path0 env0 =
            selectGo choose isTerm (t.children.get ⟨choose t % t.children.length, hi⟩)
              (path0 ++ [choose t % t.children.length])
              (env0 ++ [(t.children.get ⟨choose t % t.children.length, hi⟩).action]) := by
          rw [selectGo]
          cases t with
          | node n w pp a tn cs =>
            simp only [KTree.children] at hcs ⊢
            subst hcs
            rfl
        set i := choose t % t.children.length with hidef
        set c := t.children.get ⟨i, hi⟩ with hcdef
        have hszc : sizeOf c ≤ N := by
          have h1 : sizeOf c < sizeOf t.children :=
            List.sizeOf_lt_of_mem (t.children.get_mem i hi)
          have h2 : sizeOf t.children < sizeOf t := by
            cases t with
            | node n w pp a tn cs => simp [KTree.children]
          omega
        obtain ⟨ihr, ihb⟩ := ihN c hszc (path0 ++ [i]) (env0 ++ [c.action])
        have hgetD : t.children.getD i (.node 0 0 0 0 0 []) = c :=
          getD_eq_get t.children i hi
        constructor
        · intro path env h
          rw [heq] at h
          obtain ⟨rel, hpath, hsel, henv, hleaf, hnone⟩ := ihr path env h
          refine ⟨i :: rel, by simp [hpath], SelPath.step t i rel hi hsel, ?_, ?_, hnone⟩
          · rw [actionsAlong_cons, hgetD]
            simp [henv]
          · rw [nodeAt_cons, hgetD]
            exact hleaf
        · intro path v h
          rw [heq] at h
          obtain ⟨rel, hpath, hsel, hleaf, hsome⟩ := ihb path v h
          refine ⟨i :: rel, by simp [hpath], SelPath.step t i rel hi hsel, ?_, ?_⟩
          · rw [nodeAt_cons, hgetD]
            exact hleaf
          · rw [actionsAlong_cons, hgetD]
            simpa using hsome
  intro t
  exact main (sizeOf t) t le_rfl

/-- One select/expand cycle of the search loop (`Selfplay::inference_main`
drives `select` until it returns, then `expand`s with the inference results).
`isTerm` — the terminal value of each environment position — is fixed; the
child choice, policy, noise and values vary per cycle.  The numeric
hypotheses record the claim's premise that every value backpropagated lies in
`[-1, 1]` (the NN value head is a `tanh`, `bootstrap_value` is clamped to
`[-1, 1]`, `bootstrap_weight` and `bootstrap_amp_pct` are percentages). -/
inductive Cycle (isTerm : List Int → Option ℚ) : MState → MState → Prop
  | selFalse (choose : KTree → Nat) (st st' : MState) :
      selectStep choose isTerm st = (false, st') → Cycle isTerm st st'
  | selExpand (choose : KTree → Nat) (st st₁ : MState)
      (policy : Nat → ℚ) (noise : List ℚ) (nw : ℚ) (actions : List Nat)
      (value bootstrapVal bw amp : ℚ) (disable : Bool) :
      selectStep choose isTerm st = (true, st₁) →
      actions ≠ [] →
      noise.length = actions.length →
      -1 ≤ value → value ≤ 1 → -1 ≤ bootstrapVal → bootstrapVal ≤ 1 →
      0 ≤ bw → bw ≤ 1 → 0 ≤ amp → amp ≤ 1 →
      Cycle isTerm st
        (expandStep policy noise nw actions value bootstrapVal bw amp disable st₁)

theorem effValue_bound (value turn bootstrapVal bw amp : ℚ) (disable : Bool)
    (hturn : turn = 1 ∨ turn = -1)
    (hv : -1 ≤ value ∧ value ≤ 1) (hb : -1 ≤ bootstrapVal ∧ bootstrapVal ≤ 1)
    (hw : 0 ≤ bw ∧ bw ≤ 1) (ha : 0 ≤ amp ∧ amp ≤ 1) :
    -1 ≤ effValue value turn bootstrapVal bw amp disable ∧
    effValue value turn bootstrapVal bw amp disable ≤ 1 := by
  have hvt : -1 ≤ value * turn ∧ value * turn ≤ 1 := by
    rcases hturn with h | h <;> rw [h] <;> constructor <;> nlinarith [hv.1, hv.2]
  unfold effValue
  split_ifs with h
  · have hba : -1 ≤ bootstrapVal * amp ∧ bootstrapVal * amp ≤ 1 := by
      constructor <;>
        nlinarith [mul_nonneg ha.1 (by linarith [hb.1] : (0:ℚ) ≤ bootstrapVal + 1),
          mul_nonneg ha.1 (by linarith [hb.2] : (0:ℚ) ≤ 1 - bootstrapVal), ha.2]
    constructor
    · show -1 ≤ (1 - bw) * (value * turn) + bw * bootstrapVal * amp
      nlinarith [mul_nonneg (by linarith [hw.2] : (0:ℚ) ≤ 1 - bw)
          (by linarith [hvt.1] : (0:ℚ) ≤ value * turn + 1),
        mul_nonneg hw.1 (by linarith [hba.1] : (0:ℚ) ≤ bootstrapVal * amp + 1)]
    · show (1 - bw) * (value * turn) + bw * bootstrapVal * amp ≤ 1
      nlinarith [mul_nonneg (by linarith [hw.2] : (0:ℚ) ≤ 1 - bw)
          (by linarith [hvt.2] : (0:ℚ) ≤ 1 - value * turn),
        mul_nonneg hw.1 (by linarith [hba.2] : (0:ℚ) ≤ 1 - bootstrapVal * amp)]
  · exact hvt

/-- The protocol invariant between cycles: no pending target, environment at
the root, the root arithmetic, and the per-node bounds. -/
def ProtoInv (st : MState) : Prop :=
  st.target = none ∧ st.envPath = [] ∧ RootInv st.root ∧ AllNodes NodeInv st.root

theorem fresh_protoInv : ProtoInv MState.fresh := by
  refine ⟨rfl, rfl, Or.inl ⟨rfl, rfl⟩, ?_⟩
  rw [allNodes_iff]
  refine ⟨⟨⟨le_refl 0, by norm_num [KTree.w, KTree.n, MState.fresh]⟩, Or.inr rfl⟩, ?_⟩
  intro c hc
  simp [MState.fresh, KTree.children] at hc

theorem cycle_preserves (isTerm : List Int → Option ℚ)
    (hroot : isTerm [] = none)
    (hterm : ∀ e v, isTerm e = some v → -1 ≤ v ∧ v ≤ 1)
    (st st' : MState) (hinv : ProtoInv st) (hc : Cycle isTerm st st') :
    ProtoInv st' ∧ st'.root.children ≠ [] ∧
      st'.root.n = childSum st'.root.children + 1 := by
  obtain ⟨htgt, henv, hrinv, hninv⟩ := hinv
  cases hc with
  | selFalse choose _ _ heq =>
    unfold selectStep at heq
    rcases hsel : selectGo choose isTerm st.root [] st.envPath with
      ⟨path, env⟩ | ⟨path, v⟩ <;> rw [hsel] at heq
    · rw [Prod.mk.injEq] at heq
      cases heq.1
    · rw [Prod.mk.injEq] at heq
      obtain ⟨-, hst'⟩ := heq
      subst hst'
      obtain ⟨rel, hrel, hselp, hleaf, hsome⟩ :=
        (selectGo_spec choose isTerm st.root [] st.envPath).2 path v hsel
      rw [List.nil_append] at hrel
      subst hrel
      rw [henv] at hsome
      have hvb := hterm _ _ hsome
      rcases path with _ | ⟨i, rest⟩
      · -- would mean the root position itself is terminal, excluded by `hroot`
        exfalso
        simp only [actionsAlong, List.append_nil, List.nil_append] at hsome
        rw [hroot] at hsome
        cases hsome
      · obtain ⟨hi, -⟩ := selPath_cons _ _ _ hselp
        obtain ⟨hn, hsum, hne⟩ := root_backprop_sum v i rest st.root hi
        have hrchildren : st.root.children ≠ [] := by
          intro h
          rw [h] at hi
          simp at hi
        rcases hrinv with ⟨h0, -⟩ | ⟨-, hsum0⟩
        · exact absurd h0 hrchildren
        · exact ⟨⟨rfl, henv, Or.inr ⟨hne, by rw [hn, hsum, hsum0]⟩,
            allNodes_backprop v hvb _ _ hninv⟩, hne, by rw [hn, hsum, hsum0]⟩
  | selExpand choose _ st₁ policy noise nw actions value bootstrapVal bw amp disable
      heq hne hlen hv1 hv2 hb1 hb2 hw1 hw2 ha1 ha2 =>
    unfold selectStep at heq
    rcases hsel : selectGo choose isTerm st.root [] st.envPath with
      ⟨path, env⟩ | ⟨path, v⟩ <;> rw [hsel] at heq
    swap
    · rw [Prod.mk.injEq] at heq
      cases heq.1
    rw [Prod.mk.injEq] at heq
    obtain ⟨-, hst₁⟩ := heq
    obtain ⟨rel, hrel, hselp, henveq, hleaf, -⟩ :=
      (selectGo_spec choose isTerm st.root [] st.envPath).1 path env hsel
    rw [List.nil_append] at hrel
    subst hrel
    subst hst₁
    set acts := (actions.map Int.ofNat).zip
      (expandPriors policy actions noise nw) with hacts
    have hactslen : acts.length = actions.length := by
      rw [hacts, List.length_zip, List.length_map]
      have hp : (expandPriors policy actions noise nw).length = actions.length := by
        unfold expandPriors
        rw [List.length_map, List.length_zip, hlen]
        simp
      rw [hp]
      simp
    have hactsne : acts ≠ [] := by
      intro h
      apply hne
      rw [← List.length_eq_zero, ← hactslen, h]
      rfl
    have henvlen : env.length = path.length := by
      rw [henveq, henv]
      simp [actionsAlong_length]
    -- run the expand step
    unfold expandStep
    simp only
    have hturn := (allNodes_nodeAt path st.root hninv hselp).2
    have hveff := effValue_bound value (nodeAt st.root path).turn bootstrapVal bw amp
      disable hturn ⟨hv1, hv2⟩ ⟨hb1, hb2⟩ ⟨hw1, hw2⟩ ⟨ha1, ha2⟩
    set veff := effValue value (nodeAt st.root path).turn bootstrapVal bw amp disable
      with hveffdef
    have hpop : popN path.length env = [] := popN_all _ _ henvlen
    have hallinv : AllNodes NodeInv (backpropPath veff path (expandLeaf acts path
        st.root)) :=
      allNodes_backprop _ hveff path _ (allNodes_expandLeaf acts path _ hninv)
    rcases path with _ | ⟨i, rest⟩
    · -- expansion at the root: the root was fresh (childless)
      have hrchildren : st.root.children = [] := selPath_nil _ hselp
      obtain ⟨hn0, hcs0, hkids⟩ := root_expand_nil_sum acts st.root
      have hzero : st.root.n = 0 := by
        rcases hrinv with ⟨-, h⟩ | ⟨habs, -⟩
        · exact h
        · exact absurd hrchildren habs
      have hch : (backpropPath veff [] (expandLeaf acts [] st.root)).children =
          acts.map fun ap => KTree.node 0 0 ap.2 ap.1 (-st.root.turn) [] := by
        rw [backpropPath_nil_children, hkids, hrchildren]
        simp
      have hchne : (backpropPath veff [] (expandLeaf acts [] st.root)).children
          ≠ [] := by
        rw [hch]
        intro h
        exact hactsne (List.map_eq_nil_iff.mp h)
      have hnn : (backpropPath veff [] (expandLeaf acts [] st.root)).n =
          childSum (backpropPath veff [] (expandLeaf acts [] st.root)).children
            + 1 := by
        rw [backpropPath_n, hn0, hzero, backpropPath_nil_children, hcs0, hrchildren]
        rfl
      exact ⟨⟨rfl, by simpa using hpop, Or.inr ⟨hchne, hnn⟩, hallinv⟩, hchne, hnn⟩
    · -- expansion strictly below the root
      obtain ⟨hi, -⟩ := selPath_cons _ _ _ hselp
      obtain ⟨hen, hesum, helen⟩ := root_expand_sum acts i rest st.root hi
      have hi' : i < (expandLeaf acts (i :: rest) st.root).children.length := by
        rw [helen]; exact hi
      obtain ⟨hbn, hbsum, hbne⟩ := root_backprop_sum veff i rest
        (expandLeaf acts (i :: rest) st.root) hi'
      have hrchildren : st.root.children ≠ [] := by
        intro h
        rw [h] at hi
        simp at hi
      have hsum0 : st.root.n = childSum st.root.children + 1 := by
        rcases hrinv with ⟨h0, -⟩ | ⟨-, h⟩
        · exact absurd h0 hrchildren
        · exact h
      have hnn : (backpropPath veff (i :: rest) (expandLeaf acts (i :: rest)
          st.root)).n = childSum (backpropPath veff (i :: rest)
            (expandLeaf acts (i :: rest) st.root)).children + 1 := by
        rw [hbn, hen, hbsum, hesum, hsum0]
      exact ⟨⟨rfl, by simpa using hpop, Or.inr ⟨hbne, hnn⟩, hallinv⟩, hbne, hnn⟩

theorem allNodes_mono (P Q : KTree → Prop) (h : ∀ t, P t → Q t) :
    ∀ t, AllNodes P t → AllNodes Q t := by
  intro t ht
  induction ht with
  | mk t hp _ ih => exact AllNodes.mk t (h t hp) ih

/-- C3: after any nonempty sequence of select/expand cycles on a tree starting
from a fresh root, the root satisfies `n = Σ children.n + 1`, and — every
backpropagated value lying in `[-1, 1]` — every node satisfies `0 ≤ w ≤ n`. -/
theorem c3_tree_arithmetic (isTerm : List Int → Option ℚ)
    (hroot : isTerm [] = none)
    (hterm : ∀ e v, isTerm e = some v → -1 ≤ v ∧ v ≤ 1)
    (st : MState) (h : Relation.TransGen (Cycle isTerm) MState.fresh st) :
    st.root.n = childSum st.root.children + 1 ∧
    AllNodes (fun t => 0 ≤ t.w ∧ t.w ≤ (t.n : ℚ)) st.root := by
  have main : ProtoInv st ∧ st.root.children ≠ [] ∧
      st.root.n = childSum st.root.children + 1 := by
    induction h with
    | single hc => exact cycle_preserves isTerm hroot hterm _ _ fresh_protoInv hc
    | tail _ hc ih => exact cycle_preserves isTerm hroot hterm _ _ ih.1 hc
  exact ⟨main.2.2, allNodes_mono NodeInv _ (fun t ht => ht.1) _ main.1.2.2.2⟩

theorem c3_tree_arithmetic_witness :
    (expandStep (fun _ => (1 : ℚ)) [1] 0 [5] 0 0 0 0 false
        { root := KTree.node 0 0 0 (-1) (-1) [], target := some [],
          envPath := [] }).root.n =
      childSum (expandStep (fun _ => (1 : ℚ)) [1] 0 [5] 0 0 0 0 false
        { root := KTree.node 0 0 0 (-1) (-1) [], target := some [],
          envPath := [] }).root.children + 1 ∧
    AllNodes (fun t => 0 ≤ t.w ∧ t.w ≤ (t.n : ℚ))
      (expandStep (fun _ => (1 : ℚ)) [1] 0 [5] 0 0 0 0 false
        { root := KTree.node 0 0 0 (-1) (-1) [], target := some [],
          envPath := [] }).root :=
  c3_tree_arithmetic (fun _ => none) rfl (fun _ _ h => by simp at h) _
    (Relation.TransGen.single
      (Cycle.selExpand (fun _ => 0) MState.fresh
        { root := KTree.node 0 0 0 (-1) (-1) [], target := some [], envPath := [] }
        (fun _ => (1 : ℚ)) [1] 0 [5] 0 0 0 0 false
        (by
          have hsel : selectGo (fun _ => 0) (fun _ : List Int => (none : Option ℚ))
              (KTree.node 0 0 0 (-1) (-1) []) [] [] = .ready [] [] := by
            rw [selectGo]
            rfl
          simp [selectStep, MState.fresh, hsel])
        (by simp) rfl (by norm_num) (by norm_num) (by norm_num) (by norm_num)
        (by norm_num) (by norm_num) (by norm_num) (by norm_num)))

/-- C7: for a state in the between-cycles protocol configuration (no target,
environment at the root), if `select` returns false then the environment and
target are still reset at the root; if it returns true then `target` points to
an unexpanded (`children = []`) non-terminal leaf reached by a valid selection
path, the environment has been pushed exactly along that path, and any
subsequent `expand` clears the target and pops the environment back to the
root. -/
theorem c7_select_expand_invariant (choose : KTree → Nat)
    (isTerm : List Int → Option ℚ) (st : MState)
    (_htgt : st.target = none) (henv : st.envPath = []) :
    (∀ st', selectStep choose isTerm st = (false, st') →
        st'.target = none ∧ st'.envPath = []) ∧
    (∀ st', selectStep choose isTerm st = (true, st') →
        ∃ path, st'.target = some path ∧ SelPath st.root path ∧
          st'.envPath = actionsAlong st.root path ∧
          (nodeAt st.root path).children = [] ∧ isTerm st'.envPath = none ∧
          ∀ policy noise nw actions value bootstrapVal bw amp disable,
            (expandStep policy noise nw actions value bootstrapVal bw amp disable
              st').target = none ∧
            (expandStep policy noise nw actions value bootstrapVal bw amp disable
              st').envPath = []) := by
  constructor
  · intro st' heq
    unfold selectStep at heq
    rcases hsel : selectGo choose isTerm st.root [] st.envPath with
      ⟨path, env⟩ | ⟨path, v⟩ <;> rw [hsel] at heq
    · rw [Prod.mk.injEq] at heq
      cases heq.1
    · rw [Prod.mk.injEq] at heq
      obtain ⟨-, hst'⟩ := heq
      subst hst'
      exact ⟨rfl, henv⟩
  · intro st' heq
    unfold selectStep at heq
    rcases hsel : selectGo choose isTerm st.root [] st.envPath with
      ⟨path, env⟩ | ⟨path, v⟩ <;> rw [hsel] at heq
    swap
    · rw [Prod.mk.injEq] at heq
      cases heq.1
    rw [Prod.mk.injEq] at heq
    obtain ⟨-, hst'⟩ := heq
    subst hst'
    obtain ⟨rel, hrel, hselp, henveq, hleaf, hnone⟩ :=
      (selectGo_spec choose isTerm st.root [] st.envPath).1 path env hsel
    rw [List.nil_append] at hrel
    subst hrel
    rw [henv, List.nil_append] at henveq
    have hlen : env.length = path.length := by
      rw [henveq]
      exact actionsAlong_length path st.root
    refine ⟨path, rfl, hselp, henveq, hleaf, hnone, ?_⟩
    intro policy noise nw actions value bootstrapVal bw amp disable
    refine ⟨rfl, ?_⟩
    show popN path.length env = []
    exact popN_all _ _ hlen

theorem c7_select_expand_invariant_witness :
    (∀ st', selectStep (fun _ => 0) (fun _ => (none : Option ℚ)) MState.fresh =
        (false, st') → st'.target = none ∧ st'.envPath = []) ∧
    (∀ st', selectStep (fun _ => 0) (fun _ => (none : Option ℚ)) MState.fresh =
        (true, st') →
        ∃ path, st'.target = some path ∧ SelPath MState.fresh.root path ∧
          st'.envPath = actionsAlong MState.fresh.root path ∧
          (nodeAt MState.fresh.root path).children = [] ∧
          (fun _ => (none : Option ℚ)) st'.envPath = none ∧
          ∀ policy noise nw actions value bootstrapVal bw amp disable,
            (expandStep policy noise nw actions value bootstrapVal bw amp disable
              st').target = none ∧
            (expandStep policy noise nw actions value bootstrapVal bw amp disable
              st').envPath = []) :=
  c7_select_expand_invariant (fun _ => 0) (fun _ => none) MState.fresh rfl rfl

/-! ## Root move choice and commit (`MCTS::pick`, `MCTS::push`) -/

/-- The argmax scan of `MCTS::pick` for `alpha < 0.1`: starting from
`best_n = 0, best_action = -1`, each child with a strictly larger visit count
takes over. -/
def pickArgmaxLoop : List KTree → Nat → Int → Int
  | [], _, bestA => bestA
  | c :: cs, bestN, bestA =>
      if bestN < c.n then pickArgmaxLoop cs c.n c.action
      else pickArgmaxLoop cs bestN bestA

/-- The inverse-CDF scan of `MCTS::pick`: subtract each normalized weight
`dist[i] = w(nᵢ) / len` from `ind` and return the first action where
`ind ≤ 0`, `none` if the scan runs out. -/
def pickScan (w : Nat → ℚ) (len : ℚ) : List KTree → ℚ → Option Int
  | [], _ => none
  | c :: cs, ind =>
      if ind - w c.n / len ≤ 0 then some c.action
      else pickScan w len cs (ind - w c.n / len)

/-- `MCTS::pick`: throws on a childless root; deterministic argmax by visit
count for `alpha < 0.1`; otherwise inverse-CDF sampling over weights
`pow(n, 1/alpha)` (abstracted by `wpow`) with uniform draw `u = rand()/RAND_MAX`
and the last child as fallback. -/
def pick (t : KTree) (alpha : ℚ) (wpow : Nat → ℚ) (u : ℚ) : Except String Int :=
  match t.children with
  | [] => .error "no children to pick from"
  | c0 :: crest =>
      if alpha < 1/10 then .ok (pickArgmaxLoop (c0 :: crest) 0 (-1))
      else
        let len := ((c0 :: crest).map fun c => wpow c.n).sum
        match pickScan wpow len (c0 :: crest) u with
        | some a => .ok a
        | none => .ok (crest.getLastD c0).action

theorem pickArgmaxLoop_spec : ∀ (cs : List KTree) (bestN : Nat) (bestA : Int),
    (pickArgmaxLoop cs bestN bestA = bestA ∧ ∀ c ∈ cs, c.n ≤ bestN) ∨
    (∃ c ∈ cs, pickArgmaxLoop cs bestN bestA = c.action ∧ bestN < c.n ∧
      ∀ c' ∈ cs, c'.n ≤ c.n) := by
  intro cs
  induction cs with
  | nil => intro bestN bestA; exact Or.inl ⟨rfl, by simp⟩
  | cons c cs ih =>
    intro bestN bestA
    by_cases h : bestN < c.n
    · rcases ih c.n c.action with ⟨heq, hall⟩ | ⟨c', hc', heq, hlt, hall⟩
      · refine Or.inr ⟨c, by simp, ?_, h, ?_⟩
        · simp only [pickArgmaxLoop, if_pos h, heq]
        · intro c' hc'
          rcases List.mem_cons.mp hc' with rfl | hc'
          · exact le_refl _
          · exact hall c' hc'
      · refine Or.inr ⟨c', by simp [hc'], ?_, by omega, ?_⟩
        · simp only [pickArgmaxLoop, if_pos h, heq]
        · intro c'' hc''
          rcases List.mem_cons.mp hc'' with rfl | hc''
          · omega
          · exact hall c'' hc''
    · rcases ih bestN bestA with ⟨heq, hall⟩ | ⟨c', hc', heq, hlt, hall⟩
      · refine Or.inl ⟨?_, ?_⟩
        · simp only [pickArgmaxLoop, if_neg h, heq]
        · intro c' hc'
          rcases List.mem_cons.mp hc' with rfl | hc'
          · omega
          · exact hall c' hc'
      · refine Or.inr ⟨c', by simp [hc'], ?_, hlt, ?_⟩
        · simp only [pickArgmaxLoop, if_neg h, heq]
        · intro c'' hc''
          rcases List.mem_cons.mp hc'' with rfl | hc''
          · omega
          · exact hall c'' hc''

theorem pickArgmaxLoop_zero : ∀ cs : List KTree, (∀ c ∈ cs, c.n = 0) →
    pickArgmaxLoop cs 0 (-1) = -1 := by
  intro cs
  induction cs with
  | nil => intro _; rfl
  | cons c cs ih =>
    intro h
    have hc : c.n = 0 := h c (by simp)
    have hn : ¬ (0 < c.n) := by omega
    simp only [pickArgmaxLoop, if_neg hn]
    exact ih (fun c' hc' => h c' (List.mem_cons_of_mem c hc'))

theorem pickScan_mem (w : Nat → ℚ) (len : ℚ) : ∀ (cs : List KTree) (ind : ℚ)
    (a : Int), pickScan w len cs ind = some a → ∃ c ∈ cs, a = c.action := by
  intro cs
  induction cs with
  | nil => intro ind a h; simp [pickScan] at h
  | cons c cs ih =>
    intro ind a h
    simp only [pickScan] at h
    by_cases hle : ind - w c.n / len ≤ 0
    · rw [if_pos hle] at h
      refine ⟨c, by simp, ?_⟩
      injection h with h
      exact h.symm
    · rw [if_neg hle] at h
      obtain ⟨c', hc', ha⟩ := ih _ _ h
      exact ⟨c', by simp [hc'], ha⟩

theorem pickScan_hit (w : Nat → ℚ) (len : ℚ) : ∀ (cs : List KTree) (ind : ℚ)
    (i : Nat), i < cs.length →
    (∀ j, j < i → 0 < ind - ((cs.take (j + 1)).map fun c => w c.n / len).sum) →
    ind - ((cs.take (i + 1)).map fun c => w c.n / len).sum ≤ 0 →
    pickScan w len cs ind =
      some ((cs.getD i (KTree.node 0 0 0 0 0 [])).action) := by
  intro cs
  induction cs with
  | nil => intro ind i hi; simp at hi
  | cons c cs ih =>
    intro ind i hi hlt hle
    cases i with
    | zero =>
      have h0 : ind - w c.n / len ≤ 0 := by simpa using hle
      simp only [pickScan, if_pos h0]
      rfl
    | succ i =>
      have h0 : 0 < ind - w c.n / len := by simpa using hlt 0 (Nat.succ_pos i)
      have hnot : ¬ ind - w c.n / len ≤ 0 := not_le.mpr h0
      simp only [pickScan, if_neg hnot]
      have hi' : i < cs.length := by simpa using hi
      have hstep := ih (ind - w c.n / len) i hi'
        (fun j hj => by
          have := hlt (j + 1) (by omega)
          simp only [List.take_succ_cons, List.map_cons, List.sum_cons] at this
          linarith)
        (by
          simp only [List.take_succ_cons, List.map_cons, List.sum_cons] at hle
          linarith)
      rw [hstep]
      rfl

theorem sum_map_div (f : KTree → ℚ) (d : ℚ) : ∀ cs : List KTree,
    (cs.map fun c => f c / d).sum = (cs.map f).sum / d := by
  intro cs
  induction cs with
  | nil => simp
  | cons c cs ih =>
    simp only [List.map_cons, List.sum_cons, ih]
    ring

/-- C9 (corrected): `MCTS::pick` throws exactly on a childless root.  With
`alpha < 0.1` it returns the action of a most-visited root child whenever some
child has been visited, but when every child has `n = 0` it returns the
sentinel `-1` — not the action of any child — because the argmax starts from
`best_n = 0` with a strict comparison.  With `alpha ≥ 0.1` it returns the
action of some root child; the normalized weights `wpow(n)/Σ wpow(n)` sum
to 1 and the child whose weight interval contains the draw `u` is the one
returned. -/
theorem c9_root_sampling (t : KTree) (alpha : ℚ) (wpow : Nat → ℚ) (u : ℚ) :
    (t.children = [] → pick t alpha wpow u = .error "no children to pick from") ∧
    (t.children ≠ [] → alpha < 1/10 →
      ((∃ c ∈ t.children, 0 < c.n) →
        ∃ c ∈ t.children, pick t alpha wpow u = .ok c.action ∧
          ∀ c' ∈ t.children, c'.n ≤ c.n) ∧
      ((∀ c ∈ t.children, c.n = 0) → pick t alpha wpow u = .ok (-1))) ∧
    (t.children ≠ [] → ¬ alpha < 1/10 →
      (∃ c ∈ t.children, pick t alpha wpow u = .ok c.action) ∧
      ((t.children.map fun c => wpow c.n).sum ≠ 0 →
        (t.children.map fun c =>
          wpow c.n / (t.children.map fun c => wpow c.n).sum).sum = 1) ∧
      ∀ i, i < t.children.length →
        (∀ j, j < i → 0 < u - ((t.children.take (j + 1)).map fun c =>
            wpow c.n / (t.children.map fun c => wpow c.n).sum).sum) →
        u - ((t.children.take (i + 1)).map fun c =>
            wpow c.n / (t.children.map fun c => wpow c.n).sum).sum ≤ 0 →
        pick t alpha wpow u =
          .ok ((t.children.getD i (KTree.node 0 0 0 0 0 [])).action)) := by
  obtain ⟨nn, ww, pp, aa, tn, cs⟩ := t
  simp only [KTree.children]
  rcases cs with _ | ⟨c0, crest⟩
  · exact ⟨fun _ => rfl, fun hne _ => absurd rfl hne, fun hne _ => absurd rfl hne⟩
  refine ⟨fun h => absurd h (by simp), ?_, ?_⟩
  · intro _ halpha
    have hpick : pick (KTree.node nn ww pp aa tn (c0 :: crest)) alpha wpow u =
        .ok (pickArgmaxLoop (c0 :: crest) 0 (-1)) := by
      rw [pick]
      simp only [KTree.children]
      rw [if_pos halpha]
    constructor
    · rintro ⟨c, hc, hcn⟩
      rcases pickArgmaxLoop_spec (c0 :: crest) 0 (-1) with ⟨-, hall⟩ |
        ⟨c', hc', heq, -, hall⟩
      · have := hall c hc
        omega
      · exact ⟨c', hc', by rw [hpick, heq], hall⟩
    · intro hzero
      rw [hpick, pickArgmaxLoop_zero (c0 :: crest) hzero]
  · intro _ hge
    have hpick : pick (KTree.node nn ww pp aa tn (c0 :: crest)) alpha wpow u =
        match pickScan wpow (((c0 :: crest).map fun c => wpow c.n).sum)
            (c0 :: crest) u with
        | some a => Except.ok a
        | none => Except.ok (crest.getLastD c0).action := by
      rw [pick]
      simp only [KTree.children]
      rw [if_neg hge]
    refine ⟨?_, ?_, ?_⟩
    · rcases hscan : pickScan wpow (((c0 :: crest).map fun c => wpow c.n).sum)
          (c0 :: crest) u with _ | a
      · refine ⟨crest.getLastD c0, List.getLastD_mem_cons crest c0, ?_⟩
        rw [hpick, hscan]
      · obtain ⟨c, hc, ha⟩ := pickScan_mem _ _ _ _ _ hscan
        refine ⟨c, hc, ?_⟩
        rw [hpick, hscan, ha]
    · intro hsum_ne
      rw [sum_map_div]
      exact div_self hsum_ne
    · intro i hi hlt hle
      have hs0 := pickScan_hit wpow (((c0 :: crest).map fun c => wpow c.n).sum)
        (c0 :: crest) u i
      have hs := hs0 hi hlt hle
      rw [hpick, hs]

theorem c9_root_sampling_witness :
    ∃ c ∈ (KTree.node 3 0 0 (-1) (-1)
        [KTree.node 1 0 0 4 1 [], KTree.node 2 0 0 5 1 []]).children,
      pick (KTree.node 3 0 0 (-1) (-1)
          [KTree.node 1 0 0 4 1 [], KTree.node 2 0 0 5 1 []]) 0 (fun _ => 1) 0 =
        .ok c.action ∧
      ∀ c' ∈ (KTree.node 3 0 0 (-1) (-1)
          [KTree.node 1 0 0 4 1 [], KTree.node 2 0 0 5 1 []]).children,
        c'.n ≤ c.n :=
  ((c9_root_sampling (KTree.node 3 0 0 (-1) (-1)
      [KTree.node 1 0 0 4 1 [], KTree.node 2 0 0 5 1 []]) 0 (fun _ => 1) 0).2.1
    (by simp [KTree.children]) (by norm_num)).1
    ⟨KTree.node 2 0 0 5 1 [], by simp [KTree.children], by decide⟩

theorem c9_all_unvisited_counterexample :
    pick (KTree.node 1 0 0 (-1) (-1) [KTree.node 0 0 0 5 1 []]) 0
      (fun _ => 1) 0 = .ok (-1) ∧
    ∀ c ∈ (KTree.node 1 0 0 (-1) (-1) [KTree.node 0 0 0 5 1 []]).children,
      c.action ≠ -1 := by
  constructor
  · rw [pick]
    simp only [KTree.children]
    rw [if_pos (by norm_num : (0 : ℚ) < 1/10)]
    rfl
  · intro c hc
    simp only [KTree.children, List.mem_singleton] at hc
    subst hc
    decide

/-- `MCTS::push`'s error path destroys each non-matching child as it scans;
on a throw every root child has been deleted. -/
def KTree.eraseChildren : KTree → KTree
  | .node n w p a t _ => .node n w p a t []

/-- `MCTS::push`: scan the root children for the one whose `action` matches,
deleting the others.  If one is found it becomes the new root (its parent
pointer cleared — parents are implicit here) and the environment advances by
`action`; otherwise the routine throws `"no child for action"`, after the loop
has already destroyed every child. -/
def pushK (action : Int) (st : MState) : Option String × MState :=
  match st.root.children.foldl
      (fun acc c => if c.action = action then some c else acc) none with
  | some c => (none,
      { root := c, target := st.target, envPath := st.envPath ++ [action] })
  | none => (some "no child for action",
      { st with root := st.root.eraseChildren })

theorem foldl_lastMatch (action : Int) : ∀ (cs : List KTree) (acc : Option KTree),
    (cs.foldl (fun a c => if c.action = action then some c else a) acc = acc ∧
      ∀ c ∈ cs, c.action ≠ action) ∨
    (∃ c ∈ cs, c.action = action ∧
      cs.foldl (fun a c => if c.action = action then some c else a) acc = some c) := by
  intro cs
  induction cs with
  | nil => intro acc; exact Or.inl ⟨rfl, by simp⟩
  | cons c cs ih =>
    intro acc
    by_cases h : c.action = action
    · rcases ih (some c) with ⟨heq, -⟩ | ⟨c', hc', hact, heq⟩
      · exact Or.inr ⟨c, by simp, h, by simp only [List.foldl_cons, if_pos h, heq]⟩
      · exact Or.inr ⟨c', by simp [hc'], hact,
          by simp only [List.foldl_cons, if_pos h, heq]⟩
    · rcases ih acc with ⟨heq, hall⟩ | ⟨c', hc', hact, heq⟩
      · refine Or.inl ⟨by simp only [List.foldl_cons, if_neg h, heq], ?_⟩
        intro x hx
        rcases List.mem_cons.mp hx with rfl | hx
        · exact h
        · exact hall x hx
      · exact Or.inr ⟨c', by simp [hc'], hact,
          by simp only [List.foldl_cons, if_neg h, heq]⟩

theorem eraseChildren_children (t : KTree) : (KTree.eraseChildren t).children = [] := by
  cases t
  rfl

/-- C10: `MCTS::push` either promotes the matching root child to be the new
root and advances the environment by the action, or — when no root child
matches — reports `"no child for action"`, with every root child already
destroyed: the error path does not leave the tree's children unchanged. -/
theorem c10_push_error_path (action : Int) (st : MState) :
    ((∃ c ∈ st.root.children, c.action = action) →
      ∃ c ∈ st.root.children, c.action = action ∧
        pushK action st = (none,
          { root := c, target := st.target, envPath := st.envPath ++ [action] })) ∧
    ((∀ c ∈ st.root.children, c.action ≠ action) →
      (pushK action st).1 = some "no child for action" ∧
      (pushK action st).2.root.children = []) := by
  constructor
  · rintro ⟨c, hc, hact⟩
    rcases foldl_lastMatch action st.root.children none with ⟨-, hall⟩ |
      ⟨c', hc', hact', heq⟩
    · exact absurd hact (hall c hc)
    · refine ⟨c', hc', hact', ?_⟩
      unfold pushK
      rw [heq]
  · intro hall
    rcases foldl_lastMatch action st.root.children none with ⟨heq, -⟩ |
      ⟨c', hc', hact', -⟩
    · have heq' : pushK action st = (some "no child for action",
          { st with root := st.root.eraseChildren }) := by
        unfold pushK
        rw [heq]
      rw [heq']
      exact ⟨rfl, eraseChildren_children st.root⟩
    · exact absurd hact' (hall c' hc')

theorem c10_push_error_path_witness :
    (∃ c ∈ (KTree.node 1 0 0 (-1) (-1) [KTree.node 0 0 0 5 1 []] : KTree).children,
      c.action = 5 ∧
      pushK 5 { root := KTree.node 1 0 0 (-1) (-1) [KTree.node 0 0 0 5 1 []],
                target := none, envPath := [] } =
        (none, { root := c, target := none, envPath := [] ++ [5] })) ∧
    ((pushK 7 { root := KTree.node 1 0 0 (-1) (-1) [KTree.node 0 0 0 5 1 []],
                target := none, envPath := [] }).1 = some "no child for action" ∧
     (pushK 7 { root := KTree.node 1 0 0 (-1) (-1) [KTree.node 0 0 0 5 1 []],
                target := none, envPath := [] }).2.root.children = []) :=
  ⟨(c10_push_error_path 5
      { root := KTree.node 1 0 0 (-1) (-1) [KTree.node 0 0 0 5 1 []],
        target := none, envPath := [] }).1
      ⟨KTree.node 0 0 0 5 1 [], by simp [KTree.children], by decide⟩,
   (c10_push_error_path 7
      { root := KTree.node 1 0 0 (-1) (-1) [KTree.node 0 0 0 5 1 []],
        target := none, envPath := [] }).2
      (by
        intro c hc
        simp only [KTree.children, List.mem_singleton] at hc
        subst hc
        decide)⟩

end Kami
